import Mathlib

/-!
Verification of the multi-provider AI gateway plugin (src/ai/ai.ts).

This file shallowly embeds the data model and the operations of the gateway:
the retrying HTTP client, the output chunker, the auth strategy resolver,
the compat (wire-family) resolver and model catalog, the Gemini API-version
fallback helper, the bounded conversation-history store, the debounced
persistence layer, and the provider-configuration commands.  Strings are
embedded as Lean strings (JS string byte length is modelled by UTF-8 byte
size, matching Buffer.byteLength); JS objects keyed by strings are embedded
as association lists that preserve insertion order, matching the key order
of JS objects and Maps; network I/O is embedded by passing the would-be
responses ("oracles") as explicit arguments.
-/

namespace AiGateway


/-- Wire-protocol family, the `Compat` union type of ai.ts. -/
inductive Compat where
  | openai
  | gemini
  | claude
deriving DecidableEq, Repr

/-- One turn of conversation history, element type of `histories` entries. -/
structure HistItem where
  role : String
  content : String
deriving DecidableEq, Repr

/-! ### Association lists: insertion-ordered string-keyed records

JS plain objects and Maps preserve insertion order for string keys; these
helpers embed `obj[k]`, `obj[k] = v` and `delete obj[k]`. -/

/-- Embeds JS property read `obj[k]` (first binding wins; keys are unique in
the states we build). -/
def alookup (k : String) : List (String × α) → Option α
  | [] => none
  | (k', v) :: rest => if k' = k then some v else alookup k rest

/-- Embeds JS property write `obj[k] = v`: updates the binding in place if
the key exists, otherwise appends it (JS insertion order). -/
def aset (k : String) (v : α) : List (String × α) → List (String × α)
  | [] => [(k, v)]
  | (k', v') :: rest => if k' = k then (k, v) :: rest else (k', v') :: aset k v rest

/-- Embeds JS `delete obj[k]`. -/
def adel (k : String) : List (String × α) → List (String × α)
  | [] => []
  | (k', v') :: rest => if k' = k then adel k rest else (k', v') :: adel k rest

/-! ### JS string helpers -/

/-- Embeds JS `String.prototype.toLowerCase` (ASCII case mapping). -/
def strLower (s : String) : String := ⟨s.data.map Char.toLower⟩

/-- Embeds JS `Buffer.byteLength(s)` (UTF-8 byte count). -/
def byteLen (s : String) : Nat := s.utf8ByteSize

/-- A string of `n` copies of the letter a, used for concrete oversized inputs. -/
def repStr (n : Nat) : String := ⟨List.replicate n 'a'⟩

/-! ### Retrying HTTP client (`shouldRetry` / `axiosWithRetry`) -/

/-- The response attached to an axios error (`err.response`), carrying the
HTTP status code. -/
structure RespInfo where
  status : Nat
deriving DecidableEq, Repr

/-- An axios-style error object, as far as `shouldRetry` inspects it:
`err.response?.status`, `err.code`, `err.isAxiosError`. -/
structure AxiosErr where
  response : Option RespInfo
  code : Option String
  isAxiosError : Bool
deriving DecidableEq, Repr

/-- Embeds `shouldRetry` (ai.ts lines 40-46): retry on status
429/500/502/503/504, on connection-level error codes, or on an axios error
carrying no response at all. -/
def shouldRetry (err : AxiosErr) : Bool :=
  (match err.response with
   | some r => r.status = 429 ∨ r.status = 500 ∨ r.status = 502 ∨ r.status = 503 ∨ r.status = 504
   | none => False)
  || (err.code = some "ECONNRESET" || err.code = some "ETIMEDOUT" || err.code = some "ENOTFOUND")
  || (err.isAxiosError && err.response.isNone)

/-- One network attempt outcome: a response value or an axios error.  The
network is embedded as an oracle from attempt index to outcome. -/
abbrev Outcome := Except AxiosErr Nat

/-- Loop body of `axiosWithRetry` (ai.ts lines 47-63), starting at attempt
counter `attempt`; returns the final outcome and the total number of
attempts performed. -/
def retryLoop (oracle : Nat → Outcome) (tries : Nat) (attempt : Nat) : Outcome × Nat :=
  match oracle attempt with
  | .ok v => (.ok v, attempt + 1)
  | .error e =>
    if h : attempt ≥ tries ∨ ¬ shouldRetry e then (.error e, attempt + 1)
    else retryLoop oracle tries (attempt + 1)
termination_by tries + 1 - attempt
decreasing_by
  simp only [not_or, not_le, Bool.not_eq_false, not_not] at h
  omega

/-- Embeds `axiosWithRetry` with its attempt accounting: `tries` is the retry
budget (source default 2). -/
def axiosWithRetry (oracle : Nat → Outcome) (tries : Nat) : Outcome × Nat :=
  retryLoop oracle tries 0

/-! ### Output chunker (`splitMessage` / `buildChunks`) -/

/-- Transport message limit, `MAX_MSG` in ai.ts. -/
def MAX_MSG : Nat := 4096

/-- Reserve for page headers, `PAGE_EXTRA` in ai.ts. -/
def PAGE_EXTRA : Nat := 48

/-- Extra reserve for the collapse wrapper, `WRAP_EXTRA_COLLAPSED` in ai.ts. -/
def WRAP_EXTRA_COLLAPSED : Nat := 64

/-- Embeds JS `text.split("\n")` at the character-list level (always returns
at least one piece; the empty string splits to one empty piece, as in JS). -/
def splitNl : List Char → List (List Char)
  | [] => [[]]
  | c :: rest =>
    match splitNl rest with
    | [] => [[c]]
    | h :: t => if c = '\n' then [] :: h :: t else (c :: h) :: t

/-- Embeds the overlong-line loop of `splitMessage`:
`for (let i = 0; i < line.length; i += limit) parts.push(line.slice(i, i + limit))`. -/
def sliceLine (limit : Nat) (l : List Char) : List (List Char) :=
  if h : l.length ≤ limit ∨ limit = 0 then [l]
  else l.take limit :: sliceLine limit (l.drop limit)
termination_by l.length
decreasing_by
  rcases not_or.mp h with ⟨h1, h2⟩
  simp only [not_le] at h1
  simp [List.length_drop]
  omega

/-- Embeds the line-accumulation loop of `splitMessage` (ai.ts lines 325-336):
`cur` is the part under construction (the JS code tests its truthiness, i.e.
non-emptiness). -/
def goLines (limit : Nat) : List (List Char) → List Char → List (List Char)
  | [], cur => if cur = [] then [] else [cur]
  | line :: rest, cur =>
    if limit < line.length then
      (if cur = [] then [] else [cur]) ++ sliceLine limit line ++ goLines limit rest []
    else
      let next := if cur = [] then line else cur ++ '\n' :: line
      if limit < next.length then cur :: goLines limit rest line
      else goLines limit rest next

/-- Embeds `splitMessage` (ai.ts lines 322-338): short text is returned as a
single segment, otherwise the text is split on line boundaries (slicing
overlong single lines) into segments of at most
`max 1 (MAX_MSG - reserve)` characters. -/
def splitMessage (text : String) (reserve : Nat) : List String :=
  let limit := max 1 (MAX_MSG - reserve)
  if text.length ≤ limit then [text]
  else (goLines limit (splitNl text.data) []).map (⟨·⟩)

/-- Embeds the test
`/<blockquote(?:\s|>|\/)\/?>/i.test(s) || /<blockquote(?:\s|>|\/)/i.test(s)`
of `applyWrap`; the first disjunct is subsumed by the second (every match of
the first pattern contains a match of the second), so the disjunction is the
second test. -/
def hasBlockquoteTag (l : List Char) : Bool :=
  bqScan (l.map Char.toLower)
where
  bqScan : List Char → Bool
    | [] => false
    | c :: t =>
      (List.isPrefixOf ("<blockquote".data) (c :: t) &&
        (match (c :: t).drop 11 with
         | [] => false
         | d :: _ => d.isWhitespace || d = '>' || d = '/')) || bqScan t

/-- Embeds `applyWrap` (ai.ts lines 270-274). -/
def applyWrap (s : String) (collapse : Bool) : String :=
  if collapse then
    if hasBlockquoteTag s.data then s
    else "<span class=\"tg-spoiler\">" ++ s ++ "</span>"
  else s

/-- The page header prepended to each segment of a multi-segment answer. -/
def pageHeader (i total : Nat) : String :=
  "📄 (" ++ toString i ++ "/" ++ toString total ++ ")\n\n"

/-- Embeds `buildChunks` (ai.ts lines 276-292). -/
def buildChunks (text : String) (collapse : Bool) (tailSuffix : Option String) : List String :=
  let wrapExtra := if collapse then WRAP_EXTRA_COLLAPSED else 0
  let parts := splitMessage text (PAGE_EXTRA + wrapExtra)
  match parts with
  | [] => []
  | [p] => [applyWrap p collapse ++ tailSuffix.getD ""]
  | _ :: _ :: _ =>
    let total := parts.length
    parts.mapIdx (fun i part =>
      applyWrap (pageHeader (i + 1) total ++ part) collapse ++
        (if i = total - 1 then tailSuffix.getD "" else ""))

/-- Decides whether `t` can be obtained from `s` by deleting zero or more
newline characters: the reconstruction relation between the original text
and the concatenation of its segments. -/
def canDropNl : List Char → List Char → Bool
  | [], [] => true
  | [], _ :: _ => false
  | a :: s, [] => a = '\n' && canDropNl s []
  | a :: s, b :: t => (a = b && canDropNl s t) || (a = '\n' && canDropNl s (b :: t))

/-- The text that remains to be consumed after the current pending part:
each remaining line is preceded by the newline that separated it. -/
def tailJoin : List (List Char) → List Char
  | [] => []
  | l :: ls => '\n' :: (l ++ tailJoin ls)

/-- Re-joins a split line list: the inverse of `splitNl`. -/
def joinFirst : List (List Char) → List Char
  | [] => []
  | h :: t => h ++ tailJoin t

/-! ### Auth strategy resolver (`UniversalAuthHandler` / `buildAuthAttempts`) -/

/-- Embeds the `AuthMethod` enum of ai.ts. -/
inductive AuthMethod where
  | bearerToken
  | apiKeyHeader
  | queryParam
  | basicAuth
  | customHeader
deriving DecidableEq, Repr

/-- Embeds the `AuthConfig` interface of ai.ts. -/
structure AuthConfig where
  method : AuthMethod
  apiKey : String
  headerName : Option String := none
  paramName : Option String := none
  username : Option String := none
  password : Option String := none
deriving DecidableEq, Repr

/-- Embeds the `Provider` record of ai.ts (the fields the auth and compat
logic reads). -/
structure Provider where
  apiKey : String
  baseUrl : String
  compatauth : Option Compat := none
  authConfig : Option AuthConfig := none
deriving DecidableEq, Repr

/-- Base64 alphabet used by `Buffer.toString("base64")`. -/
def b64Table : List Char :=
  "ABCDEFGHIJKLMNOPQRSTUVWXYZabcdefghijklmnopqrstuvwxyz0123456789+/".data

/-- The base64 character for a 6-bit group. -/
def b64Char (n : Nat) : Char := (b64Table.getD n 'A')

/-- Embeds `Buffer.from(s).toString("base64")` on a UTF-8 byte list. -/
def base64Chunks : List UInt8 → List Char
  | [] => []
  | [a] =>
    let n := a.toNat
    [b64Char (n / 4), b64Char ((n % 4) * 16), '=', '=']
  | [a, b] =>
    let n := a.toNat * 256 + b.toNat
    [b64Char (n / 1024), b64Char ((n / 16) % 64), b64Char ((n % 16) * 4), '=']
  | a :: b :: c :: rest =>
    let n := a.toNat * 65536 + b.toNat * 256 + c.toNat
    b64Char (n / 262144) :: b64Char ((n / 4096) % 64) :: b64Char ((n / 64) % 64) ::
      b64Char (n % 64) :: base64Chunks rest

/-- Embeds `Buffer.from(str).toString('base64')`. -/
def base64OfString (s : String) : String := ⟨base64Chunks s.toUTF8.toList⟩

/-- One authentication attempt: headers and query parameters. -/
structure AuthAttempt where
  headers : List (String × String)
  params : List (String × String)
deriving DecidableEq, Repr

/-- Embeds `UniversalAuthHandler.buildAuthHeaders` (ai.ts lines 95-118). -/
def buildAuthHeaders (config : AuthConfig) : List (String × String) :=
  match config.method with
  | .bearerToken => [("Authorization", "Bearer " ++ config.apiKey)]
  | .apiKeyHeader => [(config.headerName.getD "X-API-Key", config.apiKey)]
  | .customHeader =>
    match config.headerName with
    | some h => [(h, config.apiKey)]
    | none => []
  | .basicAuth =>
    [("Authorization", "Basic " ++
      base64OfString ((config.username.getD config.apiKey) ++ ":" ++ (config.password.getD "")))]
  | .queryParam => []

/-- Embeds `UniversalAuthHandler.buildAuthParams` (ai.ts lines 120-129). -/
def buildAuthParams (config : AuthConfig) : List (String × String) :=
  match config.method with
  | .queryParam => [(config.paramName.getD "key", config.apiKey)]
  | _ => []

/-- Case-insensitive-free substring test on character lists, embedding JS
`String.prototype.includes` (the callers lowercase the subject first). -/
def listContains (l pat : List Char) : Bool :=
  List.isPrefixOf pat l ||
    match l with
    | [] => false
    | _ :: t => listContains t pat

/-- Embeds JS `url.includes(pat)` after `url.toLowerCase()`. -/
def strContainsLower (s pat : String) : Bool :=
  listContains (s.data.map Char.toLower) pat.data

/-- Embeds `UniversalAuthHandler.detectAuthMethod` (ai.ts lines 131-151):
classify the base URL by case-insensitive substring. -/
def detectAuthMethod (baseUrl : String) : AuthMethod :=
  if strContainsLower baseUrl "generativelanguage.googleapis.com" ||
      strContainsLower baseUrl "aiplatform.googleapis.com" then .queryParam
  else if strContainsLower baseUrl "anthropic.com" then .apiKeyHeader
  else if strContainsLower baseUrl "aip.baidubce.com" then .queryParam
  else .bearerToken

/-- Embeds the header-merge spread `{ ...authHeaders, ...extraHeaders }`
(later keys overwrite earlier ones in place). -/
def mergeHeaders (base extra : List (String × String)) : List (String × String) :=
  extra.foldl (fun acc kv => aset kv.1 kv.2 acc) base

/-- Embeds `buildAuthAttempts` (ai.ts lines 155-175): one attempt from the
explicit `AuthConfig` if present, otherwise one attempt for the detected
method. -/
def buildAuthAttempts (p : Provider) (extraHeaders : List (String × String)) :
    List AuthAttempt :=
  match p.authConfig with
  | some cfg =>
    [{ headers := mergeHeaders (buildAuthHeaders cfg) extraHeaders,
       params := buildAuthParams cfg }]
  | none =>
    let detectedMethod := detectAuthMethod p.baseUrl
    let authConfig : AuthConfig :=
      { method := detectedMethod
        apiKey := p.apiKey
        headerName := if detectedMethod = .apiKeyHeader then some "x-api-key" else none
        paramName := if detectedMethod = .queryParam then some "key" else none }
    [{ headers := mergeHeaders (buildAuthHeaders authConfig) extraHeaders,
       params := buildAuthParams authConfig }]

/-! ### Name heuristic (`detectCompat`) -/

/-- JS regex word character class, for word-boundary checks. -/
def isWordChar (c : Char) : Bool := c.isAlphanum || c = '_'

/-- There is a word boundary between the end of a match and `l`. -/
def boundaryAfter : List Char → Bool
  | [] => true
  | c :: _ => !isWordChar c

/-- Scans for an occurrence of `pat` with regex word boundaries on both
sides (`prev` is the character before the current position). -/
def scanWordBounded (pat : List Char) : Option Char → List Char → Bool
  | prev, l =>
    (List.isPrefixOf pat l &&
      (match prev with
       | none => true
       | some c => !isWordChar c) &&
      boundaryAfter (l.drop pat.length)) ||
    match l with
    | [] => false
    | c :: t => scanWordBounded pat (some c) t

/-- Embeds `detectCompat` (ai.ts lines 339-345): case-insensitive regex
match of the model name against known family tokens. -/
def detectCompat (_name model _baseUrl : String) : Compat :=
  let m := (model.data.map Char.toLower)
  if scanWordBounded ("claude".data) none m || listContains m ("anthropic".data) then .claude
  else if scanWordBounded ("gemini".data) none m || List.isPrefixOf ("gemini-".data) m ||
      listContains m ("image-generation".data) then .gemini
  else if List.isPrefixOf ("gpt-".data) m || listContains m ("gpt-4o".data) ||
      listContains m ("gpt-image".data) || listContains m ("dall-e".data) ||
      (List.isPrefixOf ("tts-1".data) m && boundaryAfter (m.drop 5)) then .openai
  else .openai

/-! ### Compatibility resolver and model catalog
(`resolveCompat` / `refreshModelCatalog` / `getCompatFromCatalog`) -/

/-- The persisted compat-related state: `modelCompat` (manual/detected
per-provider overrides) and `modelCatalog.map` (global lower-cased model
name to family). -/
structure CompatState where
  modelCompat : List (String × List (String × Compat))
  catalogMap : List (String × Compat)
deriving DecidableEq, Repr

/-- Result of `listModelsByAnyCompat`: the primary family and the
per-model family map. -/
structure ProbeResult where
  compat : Option Compat
  modelMap : List (String × Compat)
deriving DecidableEq, Repr

/-- Embeds `getCompatFromCatalog` (ai.ts lines 348-353). -/
def getCompatFromCatalog (st : CompatState) (model : String) : Option Compat :=
  alookup ⟨model.data.map Char.toLower⟩ st.catalogMap

/-- Reads a manual override entry `modelCompat[name][ml]`. -/
def lookupOverride (st : CompatState) (name ml : String) : Option Compat :=
  match alookup name st.modelCompat with
  | none => none
  | some dict => alookup ml dict

/-- Sets `modelCompat[name][k] = v` only when the entry is absent, embedding
the guarded writes of `resolveCompat` that avoid clobbering manual values. -/
def setOverrideIfAbsent (name k : String) (v : Compat)
    (mc : List (String × List (String × Compat))) :
    List (String × List (String × Compat)) :=
  let dict := (alookup name mc).getD []
  match alookup k dict with
  | some _ => aset name dict mc
  | none => aset name (aset k v dict) mc

/-- The result of one `resolveCompat` call: the returned family, the state
after the call, whether a background catalog refresh was scheduled, and
whether the live probe was awaited. -/
structure ResolveOut where
  result : Compat
  state : CompatState
  provider : Provider
  refreshScheduled : Bool
  probed : Bool
deriving Repr

/-- Embeds the body of the probe task of `resolveCompat` (ai.ts lines
395-431) on a successful probe: merge the probed model map into
`modelCompat[name]` and the catalog without overwriting existing override
entries, compute the returned family, and record `compatauth`. -/
def resolveProbeOk (st : CompatState) (name ml : String) (p : Provider)
    (byName : Compat) (res : ProbeResult) : Compat × CompatState × Provider :=
  let mc1 := res.modelMap.foldl (fun acc kv => setOverrideIfAbsent name kv.1 kv.2 acc)
    (aset name ((alookup name st.modelCompat).getD []) st.modelCompat)
  let comp := match lookupOverride { st with modelCompat := mc1 } name ml with
    | some c => c
    | none => match res.compat with
      | some c => c
      | none => byName
  let mc2 := setOverrideIfAbsent name ml comp mc1
  let cat1 := res.modelMap.foldl (fun acc kv => aset kv.1 kv.2 acc) st.catalogMap
  let cat2 := aset ml comp cat1
  let p2 := match res.compat with
    | some c => { p with compatauth := some c }
    | none => p
  (comp, ⟨mc2, cat2⟩, p2)

/-- Embeds the catch branch of the probe task of `resolveCompat` (ai.ts
lines 420-426): the heuristic value is returned and cached if absent,
and another background refresh is scheduled. -/
def resolveProbeErr (st : CompatState) (name ml : String) (byName : Compat) :
    Compat × CompatState :=
  (byName, { st with modelCompat := setOverrideIfAbsent name ml byName st.modelCompat })

/-- Embeds `resolveCompat` (ai.ts lines 383-434) for a call with no
in-flight duplicate: manual override first, then catalog, then the name
heuristic plus a scheduled background refresh and an awaited live probe
whose outcome is the `probe` argument. -/
def resolveCompat (st : CompatState) (name model : String) (p : Provider)
    (probe : Except Unit ProbeResult) : ResolveOut :=
  let ml : String := ⟨model.data.map Char.toLower⟩
  match lookupOverride st name ml with
  | some mc => ⟨mc, st, p, false, false⟩
  | none =>
    match getCompatFromCatalog st model with
    | some cat => ⟨cat, st, p, false, false⟩
    | none =>
      let byName := detectCompat name model p.baseUrl
      match probe with
      | .ok res =>
        let (comp, st2, p2) := resolveProbeOk st name ml p byName res
        ⟨comp, st2, p2, true, true⟩
      | .error _ =>
        let (comp, st2) := resolveProbeErr st name ml byName
        ⟨comp, st2, p, true, true⟩

/-- Embeds `refreshModelCatalog` (ai.ts lines 354-381): rebuild
`modelCatalog.map` from the per-provider probe results (failed providers
are skipped), leaving `modelCompat` untouched. -/
def refreshModelCatalog (st : CompatState)
    (probes : List (Except Unit ProbeResult)) : CompatState :=
  let merged := probes.foldl
    (fun acc pr =>
      match pr with
      | .ok res => res.modelMap.foldl (fun m kv => aset kv.1 kv.2 m) acc
      | .error _ => acc)
    ([] : List (String × Compat))
  { st with catalogMap := merged }

/-- Override lookup as a function of the modelCompat component alone. -/
def olook (mc : List (String × List (String × Compat))) (n m : String) : Option Compat :=
  match alookup n mc with
  | none => none
  | some dict => alookup m dict

/-! ### Gemini API-version fallback (`isRouteError` / `geminiRequestWithFallback`) -/

/-- A request failure as `isRouteError` inspects it: the HTTP status (absent
for pure network failures) and the lower-cased stringified response body or
message. -/
structure GemErr where
  status : Option Nat
  text : String
deriving DecidableEq, Repr

/-- Embeds `isRouteError` (ai.ts lines 626-630): 404/405, or a 400 whose
body mentions an unknown/not-found/invalid-path/no-route condition. -/
def isRouteError (e : GemErr) : Bool :=
  e.status = some 404 || e.status = some 405 ||
    (e.status = some 400 &&
      (listContains (e.text.data.map Char.toLower) ("unknown".data) ||
       listContains (e.text.data.map Char.toLower) ("not found".data) ||
       listContains (e.text.data.map Char.toLower) ("invalid path".data) ||
       listContains (e.text.data.map Char.toLower) ("no route".data)))

/-- One axios request configuration as `mkConfigs` builds them: headers and
query params. -/
structure GemCfg where
  headers : List (String × String)
  params : List (String × String)
deriving DecidableEq, Repr

/-- Embeds `mkConfigs` of `geminiRequestWithFallback` (ai.ts lines 634-649):
three auth variants (query `key`, `x-goog-api-key` header, bearer), ordered
by the provider's `compatauth` hint, deduplicated by value. -/
def mkConfigs (p : Provider) (base : GemCfg) : List GemCfg :=
  let cfgKey : GemCfg := ⟨base.headers, aset "key" p.apiKey base.params⟩
  let cfgXGoog : GemCfg := ⟨aset "x-goog-api-key" p.apiKey base.headers, base.params⟩
  let cfgAuth : GemCfg := ⟨aset "Authorization" ("Bearer " ++ p.apiKey) base.headers,
    base.params⟩
  let ordered :=
    if p.compatauth = some .openai ∨ p.compatauth = some .claude then
      [cfgAuth, cfgXGoog, cfgKey]
    else [cfgKey, cfgXGoog, cfgAuth]
  ordered.foldl (fun out c => if c ∈ out then out else out ++ [c]) []

/-- Outcome of one Gemini attempt, keyed by `(versionPath, config)`. -/
abbrev GemOracle := String → GemCfg → Except GemErr Nat

/-- The inner `for (const cfg of configs)` loop of `geminiRequestWithFallback`
at one version path: returns the successful value or the last error together
with the list of configs actually attempted; a route error aborts the loop
(`break`), any other error moves to the next config. -/
def gemTryPath (oracle : GemOracle) (path : String) :
    List GemCfg → Option Nat × Option GemErr × List GemCfg
  | [] => (none, none, [])
  | cfg :: rest =>
    match oracle path cfg with
    | .ok v => (some v, none, [cfg])
    | .error e =>
      if isRouteError e then (none, some e, [cfg])
      else
        match gemTryPath oracle path rest with
        | (res, none, tried) => (res, some e, cfg :: tried)
        | (res, some e', tried) => (res, some e', cfg :: tried)

/-- Embeds `geminiRequestWithFallback` (ai.ts lines 632-665): try every
config at `/v1beta`, then (unless a success occurred) at `/v1`, propagating
the last error; returns the outcome and the full attempt trace. -/
def geminiRequestWithFallback (p : Provider) (base : GemCfg) (oracle : GemOracle) :
    Except GemErr Nat × List (String × GemCfg) :=
  let configs := mkConfigs p base
  match gemTryPath oracle "/v1beta" configs with
  | (some v, _, tried) => (.ok v, tried.map (fun c => ("/v1beta", c)))
  | (none, e1, tried1) =>
    match gemTryPath oracle "/v1" configs with
    | (some v, _, tried2) =>
      (.ok v, tried1.map (fun c => ("/v1beta", c)) ++ tried2.map (fun c => ("/v1", c)))
    | (none, e2, tried2) =>
      ((match e2 with
        | some e => .error e
        | none => match e1 with
          | some e => .error e
          | none => .error ⟨none, ""⟩),
       tried1.map (fun c => ("/v1beta", c)) ++ tried2.map (fun c => ("/v1", c)))

/-! ### Conversation history store (`pushHist` / `pruneGlobalHistories`) -/

/-- Per-session turn cap, `MAX_ITEMS` in `pushHist`. -/
def HISTORY_MAX_ITEMS : Nat := 50

/-- Per-session byte cap, `MAX_BYTES` in `pushHist` (64 KiB). -/
def HISTORY_MAX_BYTES : Nat := 64 * 1024

/-- Global session cap, `HISTORY_GLOBAL_MAX_SESSIONS` in ai.ts. -/
def HISTORY_GLOBAL_MAX_SESSIONS : Nat := 200

/-- Global byte cap, `HISTORY_GLOBAL_MAX_BYTES` in ai.ts (2 MiB). -/
def HISTORY_GLOBAL_MAX_BYTES : Nat := 2 * 1024 * 1024

/-- Embeds `Buffer.byteLength(role + ":" + content)`, the per-turn size
used by both pruning loops. -/
def sizeOfItem (x : HistItem) : Nat := byteLen (x.role ++ ":" ++ x.content)

/-- Embeds the reduce-based byte total of a session. -/
def sizeOfHist (l : List HistItem) : Nat := l.foldl (fun t x => t + sizeOfItem x) 0

/-- The mutable store slice that `pushHist` and `pruneGlobalHistories`
touch: `histories` and `histMeta` (last-write time, embedded as a numeric
timestamp). -/
structure HistState where
  histories : List (String × List HistItem)
  histMeta : List (String × Nat)
deriving Repr

/-- Embeds the `while (h.length > MAX_ITEMS) h.shift()` loop of `pushHist`. -/
def trimCount (h : List HistItem) : List HistItem :=
  if hg : HISTORY_MAX_ITEMS < h.length then trimCount h.tail else h
termination_by h.length
decreasing_by
  cases h with
  | nil => simp [HISTORY_MAX_ITEMS] at hg
  | cons a t =>
    simp only [List.tail_cons, List.length_cons]
    omega

/-- Embeds the `while (total > MAX_BYTES && h.length > 1) ...` loop of
`pushHist`: drop oldest turns while over budget, but keep at least one. -/
def trimBytes (h : List HistItem) : List HistItem :=
  if hg : HISTORY_MAX_BYTES < sizeOfHist h ∧ 1 < h.length then trimBytes h.tail else h
termination_by h.length
decreasing_by
  cases h with
  | nil => simp at hg
  | cons a t =>
    simp only [List.tail_cons, List.length_cons]
    omega

/-- Total byte size of all sessions, as `pruneGlobalHistories` computes it. -/
def totalSize (hs : List (String × List HistItem)) : Nat :=
  (hs.map (fun kv => sizeOfHist kv.2)).sum

/-- Last-write time of a session (`Date.parse` of the stored ISO string;
a missing entry parses the epoch, i.e. 0). -/
def metaTime (meta : List (String × Nat)) (id : String) : Nat :=
  (alookup id meta).getD 0

/-- Stable insertion into a list sorted ascending by last-write time,
placing the inserted id before strictly later ones only. -/
def insertByTime (meta : List (String × Nat)) (x : String) :
    List String → List String
  | [] => [x]
  | y :: ys =>
    if metaTime meta x ≤ metaTime meta y then x :: y :: ys
    else y :: insertByTime meta x ys

/-- Embeds `ids.sort((a, b) => ta - tb)`: a stable ascending sort by
last-write time (JS engines implement a stable sort). -/
def sortByTime (meta : List (String × Nat)) : List String → List String
  | [] => []
  | x :: xs => insertByTime meta x (sortByTime meta xs)

/-- Embeds the eviction `while` loop of `pruneGlobalHistories` (ai.ts lines
566-572): evict the sorted-oldest session while over either global cap. -/
def evictLoop (sorted : List String) (totalBytes : Nat) (st : HistState) : HistState :=
  match sorted with
  | [] => st
  | victim :: rest =>
    if HISTORY_GLOBAL_MAX_SESSIONS < (victim :: rest).length ∨
        HISTORY_GLOBAL_MAX_BYTES < totalBytes then
      evictLoop rest (totalBytes - sizeOfHist ((alookup victim st.histories).getD []))
        ⟨adel victim st.histories, adel victim st.histMeta⟩
    else st

/-- Embeds `pruneGlobalHistories` (ai.ts lines 551-573). -/
def pruneGlobalHistories (st : HistState) : HistState :=
  let ids := st.histories.map Prod.fst
  if ids.isEmpty then st
  else
    let totalBytes := totalSize st.histories
    if ids.length ≤ HISTORY_GLOBAL_MAX_SESSIONS ∧ totalBytes ≤ HISTORY_GLOBAL_MAX_BYTES then
      st
    else
      evictLoop (sortByTime st.histMeta ids) totalBytes st

/-- Embeds `pushHist` (ai.ts lines 574-588): append the turn, trim the
session by count then by bytes, stamp the last-write time, then prune the
global store. -/
def pushHist (st : HistState) (id role content : String) (now : Nat) : HistState :=
  let h0 := (alookup id st.histories).getD []
  let h1 := h0 ++ [⟨role, content⟩]
  let h2 := trimCount h1
  let h3 := trimBytes h2
  pruneGlobalHistories
    ⟨aset id h3 st.histories, aset id now st.histMeta⟩

/-- Reads a session, embedding `histFor` (ai.ts line 469). -/
def histFor (st : HistState) (id : String) : List HistItem :=
  (alookup id st.histories).getD []

/-! ### Debounced persistence (`Store.writeSoon`) -/

/-- The debounce delay, `Store.writeSoonDelay` (300 ms). -/
def writeSoonDelay : Nat := 300

/-- Simulates the timer semantics of `writeSoon` (ai.ts lines 261-267) over
a timeline of mutations `(time, newData)` in increasing time order, given
the current in-memory data and the pending timer fire-time: `writeSoon`
clears any pending timer and schedules a new one `delay` later; a timer
that fires writes the in-memory data of that moment.  Returns the list of
performed disk writes `(fireTime, dataWritten)`. -/
def debounceRun (delay : Nat) : List (Nat × α) → α → Option Nat → List (Nat × α)
  | [], _, none => []
  | [], cur, some f => [(f, cur)]
  | (t, d) :: rest, cur, pending =>
    match pending with
    | none => debounceRun delay rest d (some (t + delay))
    | some f =>
      if f ≤ t then (f, cur) :: debounceRun delay rest d (some (t + delay))
      else debounceRun delay rest d (some (t + delay))

/-- Disk writes caused by a burst of mutations starting from idle state. -/
def debounceWrites (events : List (Nat × α)) (init : α) : List (Nat × α) :=
  debounceRun writeSoonDelay events init none

/-! ### Provider configuration commands (`ai config add/update/remove`) -/

/-- Embeds `trimBase` (ai.ts line 19): strip one trailing slash. -/
def trimBase (u : String) : String :=
  if u.data.getLast? = some '/' then ⟨u.data.dropLast⟩ else u

/-- Embeds JS `String.prototype.trim`. -/
def strTrim (s : String) : String :=
  ⟨((s.data.dropWhile Char.isWhitespace).reverse.dropWhile Char.isWhitespace).reverse⟩

/-- The per-kind model selectors, the `Models` record of ai.ts. -/
structure ModelsCfg where
  chat : String
  search : String
  image : String
  tts : String
deriving DecidableEq, Repr

/-- The store slice the configuration commands touch, together with the
keys of the in-flight `compatResolving` map. -/
structure ConfigState where
  providers : List (String × Provider)
  modelCompat : List (String × List (String × Compat))
  catalogMap : List (String × Compat)
  models : ModelsCfg
  resolvingKeys : List String
deriving Repr

/-- Embeds `compatResolving.delete(k)` on the key set. -/
def rdel (k : String) (l : List String) : List String := l.filter (fun x => x ≠ k)

/-- Embeds `ai config add` (ai.ts lines 1461-1476) after a successful URL
check: store the provider, drop its override table, drop the provider-level
in-flight key, and trigger a catalog refresh (the returned flag). -/
def cmdConfigAdd (st : ConfigState) (name key baseUrl : String) : ConfigState × Bool :=
  ({ st with
      providers := aset name ⟨key, trimBase (strTrim baseUrl), none, none⟩ st.providers
      modelCompat := adel name st.modelCompat
      resolvingKeys := rdel name st.resolvingKeys }, true)

/-- Embeds `ai config update` (ai.ts lines 1477-1498) for the two accepted
fields, after a successful URL check for `baseurl`: update the field, drop
the `compatauth` hint, drop the provider's override table and provider-level
in-flight key, and trigger a catalog refresh. -/
def cmdConfigUpdate (st : ConfigState) (name field value : String) : ConfigState × Bool :=
  match alookup name st.providers with
  | none => (st, false)
  | some p =>
    let fl : String := ⟨field.data.map Char.toLower⟩
    if fl = "apikey" then
      ({ st with
          providers := aset name { p with apiKey := value, compatauth := none } st.providers
          modelCompat := adel name st.modelCompat
          resolvingKeys := rdel name st.resolvingKeys }, true)
    else if fl = "baseurl" then
      ({ st with
          providers := aset name
            { p with baseUrl := trimBase (strTrim value), compatauth := none } st.providers
          modelCompat := adel name st.modelCompat
          resolvingKeys := rdel name st.resolvingKeys }, true)
    else (st, false)

/-- Clears the model selectors that point at a removed provider
(`if (v && v.startsWith(target + " ")) models[k] = ""`). -/
def clearModelsOf (target : String) (m : ModelsCfg) : ModelsCfg :=
  let clear := fun (v : String) =>
    if List.isPrefixOf ((target ++ " ").data) v.data then "" else v
  ⟨clear m.chat, clear m.search, clear m.image, clear m.tts⟩

/-- Embeds `ai config remove` (ai.ts lines 1499-1512): `all` clears
providers, overrides, catalog and the whole in-flight map; removing one
provider deletes it and its override table and clears selectors pointing at
it, but touches no in-flight keys.  The flag reports whether a catalog
refresh is triggered. -/
def cmdConfigRemove (st : ConfigState) (target : String) : ConfigState × Bool :=
  if target = "all" then
    ({ st with
        providers := []
        modelCompat := []
        catalogMap := []
        resolvingKeys := [] }, true)
  else
    match alookup target st.providers with
    | none => (st, false)
    | some _ =>
      ({ st with
          providers := adel target st.providers
          modelCompat := adel target st.modelCompat
          models := clearModelsOf target st.models }, true)

/-- Deleting a list of sessions in order, the shape of what the eviction
loop does to the store. -/
def applyDel (ids : List String) (st : HistState) : HistState :=
  ids.foldl (fun s v => ⟨adel v s.histories, adel v s.histMeta⟩) st

/-- Sequential appends into one session, embedding a burst of `pushHist`
calls for the same id. -/
def pushHistSeq (st : HistState) (id : String) (L : List HistItem) : HistState :=
  L.foldl (fun s x => pushHist s id x.role x.content 0) st

/-- The per-session evolution of one `pushHist` call. -/
def sessStep (S : List HistItem) (x : HistItem) : List HistItem :=
  trimBytes (trimCount (S ++ [x]))

/-- Every mutation in the tail arrives before the currently pending fire
time (i.e. within the debounce window of its predecessor). -/
def gapsOk (delay : Nat) : Nat → List (Nat × α) → Bool
  | _, [] => true
  | f, (t, _) :: rest => decide (t < f) && gapsOk delay (t + delay) rest

/-! ### Theorems -/

theorem alookup_aset_self (k : String) (v : α) (l : List (String × α)) :
    alookup k (aset k v l) = some v := by
  induction l with
  | nil => simp [aset, alookup]
  | cons hd tl ih =>
    obtain ⟨k', v'⟩ := hd
    by_cases h : k' = k <;> simp [aset, alookup, h, ih]

theorem alookup_aset_ne (k j : String) (v : α) (l : List (String × α)) (hne : j ≠ k) :
    alookup j (aset k v l) = alookup j l := by
  have hkj : k ≠ j := fun h => hne h.symm
  induction l with
  | nil => simp [aset, alookup, hkj]
  | cons hd tl ih =>
    obtain ⟨k', v'⟩ := hd
    by_cases h : k' = k
    · subst h
      simp [aset, alookup, hkj]
    · by_cases h2 : k' = j <;> simp [aset, alookup, h, h2, ih, hne]

theorem alookup_adel_ne (k j : String) (l : List (String × α)) (hne : j ≠ k) :
    alookup j (adel k l) = alookup j l := by
  have hkj : k ≠ j := fun h => hne h.symm
  induction l with
  | nil => simp [adel]
  | cons hd tl ih =>
    obtain ⟨k', v'⟩ := hd
    by_cases h : k' = k
    · subst h
      simp [adel, alookup, hkj, ih]
    · by_cases h2 : k' = j <;> simp [adel, alookup, h, h2, ih, hne]

theorem utf8go_cons (c : Char) (cs : List Char) :
    String.utf8ByteSize.go (c :: cs) = String.utf8ByteSize.go cs + c.utf8Size := rfl

theorem utf8_mk (l : List Char) : String.utf8ByteSize ⟨l⟩ = String.utf8ByteSize.go l := rfl

theorem utf8go_append (la lb : List Char) :
    String.utf8ByteSize.go (la ++ lb) =
      String.utf8ByteSize.go la + String.utf8ByteSize.go lb := by
  induction la with
  | nil => simp [String.utf8ByteSize.go]
  | cons c cs ih =>
    rw [List.cons_append, utf8go_cons, utf8go_cons, ih]
    omega

theorem byteLen_append (a b : String) : byteLen (a ++ b) = byteLen a + byteLen b := by
  cases a with | mk la =>
  cases b with | mk lb =>
  show String.utf8ByteSize ⟨la ++ lb⟩ = _
  rw [utf8_mk, utf8go_append]
  rfl

theorem repStr_byteLen (n : Nat) : byteLen (repStr n) = n := by
  induction n with
  | zero => rfl
  | succ k ih =>
    have h : repStr (k + 1) = ⟨'a' :: List.replicate k 'a'⟩ := by
      simp [repStr, List.replicate_succ]
    show (repStr (k + 1)).utf8ByteSize = k + 1
    rw [h, utf8_mk, utf8go_cons]
    have h2 : String.utf8ByteSize.go (List.replicate k 'a') = k := ih
    rw [h2]
    have h3 : ('a' : Char).utf8Size = 1 := by decide
    rw [h3]

theorem retryLoop_attempts_le (oracle : Nat → Outcome) (tries attempt : Nat)
    (h : attempt ≤ tries) : (retryLoop oracle tries attempt).2 ≤ tries + 1 := by
  suffices hs : ∀ fuel a, tries + 1 - a ≤ fuel → a ≤ tries →
      (retryLoop oracle tries a).2 ≤ tries + 1 by
    exact hs (tries + 1) attempt (by omega) h
  intro fuel
  induction fuel with
  | zero => intro a h1 h2; omega
  | succ n ih =>
    intro a h1 h2
    rw [retryLoop]
    cases oracle a with
    | ok v => simpa using h2
    | error e =>
      dsimp only
      by_cases hc : a ≥ tries ∨ ¬ shouldRetry e
      · rw [dif_pos hc]
        simpa using h2
      · rw [dif_neg hc]
        have hat : a < tries := by
          rcases not_or.mp hc with ⟨hg, _⟩
          omega
        exact ih (a + 1) (by omega) (by omega)

/-- All attempts before the last one failed with a retryable error and were
within budget: attempt `i` is followed by attempt `i+1` only under those
conditions. -/
theorem retryLoop_mid_retryable (oracle : Nat → Outcome) (tries attempt : Nat) (i : Nat)
    (hi : attempt ≤ i) (hlt : i + 1 < (retryLoop oracle tries attempt).2) :
    ∃ e, oracle i = .error e ∧ shouldRetry e = true ∧ i < tries := by
  suffices hs : ∀ fuel a, tries + 1 - a ≤ fuel → a ≤ i →
      i + 1 < (retryLoop oracle tries a).2 →
      ∃ e, oracle i = .error e ∧ shouldRetry e = true ∧ i < tries by
    exact hs (tries + 1) attempt (by omega) hi hlt
  intro fuel
  induction fuel with
  | zero =>
    intro a h1 h2 h3
    rw [retryLoop] at h3
    cases hor : oracle a with
    | ok v => rw [hor] at h3; simp at h3; omega
    | error e =>
      rw [hor] at h3
      dsimp only at h3
      by_cases hc : a ≥ tries ∨ ¬ shouldRetry e
      · rw [dif_pos hc] at h3; simp at h3; omega
      · rcases not_or.mp hc with ⟨hg, _⟩
        omega
  | succ n ih =>
    intro a h1 h2 h3
    rw [retryLoop] at h3
    cases hor : oracle a with
    | ok v => rw [hor] at h3; simp at h3; omega
    | error e =>
      rw [hor] at h3
      dsimp only at h3
      by_cases hc : a ≥ tries ∨ ¬ shouldRetry e
      · rw [dif_pos hc] at h3; simp at h3; omega
      · rw [dif_neg hc] at h3
        rcases not_or.mp hc with ⟨hg, hr⟩
        simp only [not_le] at hg
        by_cases heq : i = a
        · subst heq
          exact ⟨e, hor, by simpa using hr, hg⟩
        · exact ih (a + 1) (by omega) (by omega) h3

/-- A first-attempt error that the classifier rejects fails immediately:
one attempt, the error propagated unchanged. -/
theorem axiosWithRetry_no_retry (oracle : Nat → Outcome) (tries : Nat) (e : AxiosErr)
    (h0 : oracle 0 = .error e) (hnr : shouldRetry e = false) :
    axiosWithRetry oracle tries = (.error e, 1) := by
  rw [axiosWithRetry, retryLoop, h0]
  dsimp only
  rw [dif_pos (Or.inr (by simp [hnr]))]

/-- The attempt counter of the retry loop always advances past the starting
attempt. -/
theorem retryLoop_ge (oracle : Nat → Outcome) (tries attempt : Nat) :
    attempt + 1 ≤ (retryLoop oracle tries attempt).2 := by
  suffices hs : ∀ fuel a, tries + 1 - a ≤ fuel → a + 1 ≤ (retryLoop oracle tries a).2 by
    exact hs (tries + 1) attempt (by omega)
  intro fuel
  induction fuel with
  | zero =>
    intro a h1
    rw [retryLoop]
    cases oracle a with
    | ok v => simp
    | error e =>
      dsimp only
      by_cases hc : a ≥ tries ∨ ¬ shouldRetry e
      · rw [dif_pos hc]
      · rcases not_or.mp hc with ⟨hg, _⟩
        omega
  | succ n ih =>
    intro a h1
    rw [retryLoop]
    cases oracle a with
    | ok v => simp
    | error e =>
      dsimp only
      by_cases hc : a ≥ tries ∨ ¬ shouldRetry e
      · rw [dif_pos hc]
      · rw [dif_neg hc]
        have := ih (a + 1) (by omega)
        omega

/-- A first-attempt retryable error with budget left leads to a second attempt. -/
theorem axiosWithRetry_retries (oracle : Nat → Outcome) (tries : Nat) (e : AxiosErr)
    (h0 : oracle 0 = .error e) (hr : shouldRetry e = true) (ht : 0 < tries) :
    2 ≤ (axiosWithRetry oracle tries).2 := by
  rw [axiosWithRetry, retryLoop, h0]
  have hc : ¬ (0 ≥ tries ∨ ¬ shouldRetry e) := by
    rw [not_or]
    exact ⟨by omega, by simp [hr]⟩
  dsimp only
  rw [dif_neg hc]
  exact retryLoop_ge oracle tries 1

theorem canDropNl_refl (l : List Char) : canDropNl l l = true := by
  induction l with
  | nil => rfl
  | cons a s ih => simp [canDropNl, ih]

theorem canDropNl_nil_right (t : List Char) (h : canDropNl [] t = true) : t = [] := by
  cases t with
  | nil => rfl
  | cons b bt => simp [canDropNl] at h

theorem canDropNl_append {s1 t1 s2 t2 : List Char}
    (h1 : canDropNl s1 t1 = true) (h2 : canDropNl s2 t2 = true) :
    canDropNl (s1 ++ s2) (t1 ++ t2) = true := by
  induction s1 generalizing t1 with
  | nil =>
    have := canDropNl_nil_right t1 h1
    subst this
    simpa using h2
  | cons a s ih =>
    cases t1 with
    | nil =>
      simp only [canDropNl, Bool.and_eq_true, decide_eq_true_eq] at h1
      obtain ⟨ha, hs⟩ := h1
      subst ha
      have hrec : canDropNl (s ++ s2) t2 = true := by
        have := @ih [] hs
        simpa using this
      cases ht2 : t2 with
      | nil =>
        rw [ht2] at hrec
        simp [canDropNl, hrec]
      | cons b bt =>
        rw [ht2] at hrec
        simp only [List.nil_append, List.cons_append, canDropNl]
        apply Bool.or_eq_true_iff.mpr
        right
        simp [hrec]
    | cons b bt =>
      simp only [canDropNl, Bool.or_eq_true_iff, Bool.and_eq_true, decide_eq_true_eq] at h1
      rcases h1 with ⟨hab, hs⟩ | ⟨ha, hs⟩
      · subst hab
        simp only [List.cons_append, canDropNl]
        apply Bool.or_eq_true_iff.mpr
        left
        simp [ih hs]
      · subst ha
        simp only [List.cons_append, canDropNl]
        apply Bool.or_eq_true_iff.mpr
        right
        have := @ih (b :: bt) hs
        simp only [List.cons_append] at this
        simp [this]

theorem canDropNl_drop_head {s t : List Char} (h : canDropNl s t = true) :
    canDropNl ('\n' :: s) t = true := by
  cases t with
  | nil => simp [canDropNl, h]
  | cons b bt =>
    simp only [canDropNl]
    apply Bool.or_eq_true_iff.mpr
    right
    simp [h]

theorem splitNl_ne_nil (l : List Char) : splitNl l ≠ [] := by
  cases l with
  | nil => simp [splitNl]
  | cons c rest =>
    simp only [splitNl]
    cases splitNl rest with
    | nil => simp
    | cons h t =>
      by_cases hc : c = '\n' <;> simp [hc]

theorem splitNl_join (l : List Char) : joinFirst (splitNl l) = l := by
  induction l with
  | nil => rfl
  | cons c rest ih =>
    cases hr : splitNl rest with
    | nil => exact absurd hr (splitNl_ne_nil rest)
    | cons h t =>
      rw [hr] at ih
      have hs : splitNl (c :: rest) = if c = '\n' then [] :: h :: t else (c :: h) :: t := by
        rw [splitNl, hr]
      rw [hs]
      by_cases hc : c = '\n'
      · rw [if_pos hc, hc]
        show ([] : List Char) ++ tailJoin (h :: t) = '\n' :: rest
        simp only [List.nil_append, tailJoin]
        simp only [joinFirst] at ih
        rw [ih]
      · rw [if_neg hc]
        show (c :: h) ++ tailJoin t = c :: rest
        simp only [List.cons_append]
        simp only [joinFirst] at ih
        rw [ih]

theorem sliceLine_flatten (limit : Nat) (l : List Char) :
    (sliceLine limit l).flatten = l := by
  suffices hs : ∀ fuel l, List.length l ≤ fuel → (sliceLine limit l).flatten = l by
    exact hs l.length l le_rfl
  intro fuel
  induction fuel with
  | zero =>
    intro l hl
    have : l = [] := List.eq_nil_of_length_eq_zero (by omega)
    subst this
    rw [sliceLine]
    simp
  | succ n ih =>
    intro l hl
    rw [sliceLine]
    by_cases h : l.length ≤ limit ∨ limit = 0
    · rw [dif_pos h]
      simp
    · rw [dif_neg h]
      rcases not_or.mp h with ⟨h1, h2⟩
      simp only [not_le] at h1
      simp only [List.flatten_cons]
      rw [ih (l.drop limit) (by simp [List.length_drop]; omega)]
      exact List.take_append_drop limit l

theorem sliceLine_len_le (limit : Nat) (hlim : 1 ≤ limit) (l : List Char) :
    ∀ p ∈ sliceLine limit l, p.length ≤ limit := by
  suffices hs : ∀ fuel l, List.length l ≤ fuel → ∀ p ∈ sliceLine limit l, p.length ≤ limit by
    exact hs l.length l le_rfl
  intro fuel
  induction fuel with
  | zero =>
    intro l hl p hp
    have : l = [] := List.eq_nil_of_length_eq_zero (by omega)
    subst this
    rw [sliceLine] at hp
    simp at hp
    subst hp
    simpa using hlim
  | succ n ih =>
    intro l hl p hp
    rw [sliceLine] at hp
    by_cases h : l.length ≤ limit ∨ limit = 0
    · rw [dif_pos h] at hp
      simp at hp
      subst hp
      rcases h with h | h
      · exact h
      · omega
    · rw [dif_neg h] at hp
      rcases not_or.mp h with ⟨h1, h2⟩
      simp only [not_le] at h1
      simp only [List.mem_cons] at hp
      rcases hp with hp | hp
      · subst hp
        simp
      · exact ih (l.drop limit) (by simp [List.length_drop]; omega) p hp

/-- Every part the line-accumulation loop emits respects the limit, provided
the pending part does. -/
theorem goLines_len_le (limit : Nat) (hlim : 1 ≤ limit) :
    ∀ (ls : List (List Char)) (cur : List Char), cur.length ≤ limit →
      ∀ p ∈ goLines limit ls cur, p.length ≤ limit := by
  intro ls
  induction ls with
  | nil =>
    intro cur hcur p hp
    rw [goLines] at hp
    by_cases h : cur = []
    · simp [h] at hp
    · rw [if_neg h] at hp
      simp at hp
      subst hp
      exact hcur
  | cons line rest ih =>
    intro cur hcur p hp
    rw [goLines] at hp
    by_cases hlong : limit < line.length
    · rw [if_pos hlong] at hp
      simp only [List.mem_append] at hp
      rcases hp with (hp | hp) | hp
      · by_cases h : cur = []
        · simp [h] at hp
        · rw [if_neg h] at hp
          simp at hp
          subst hp
          exact hcur
      · exact sliceLine_len_le limit hlim line p hp
      · exact ih [] (by simpa using hlim) p hp
    · rw [if_neg hlong] at hp
      simp only [not_lt] at hlong
      by_cases hnext : limit < (if cur = [] then line else cur ++ '\n' :: line).length
      · rw [if_pos hnext] at hp
        simp only [List.mem_cons] at hp
        rcases hp with hp | hp
        · subst hp
          exact hcur
        · exact ih line hlong p hp
      · rw [if_neg hnext] at hp
        simp only [not_lt] at hnext
        exact ih _ hnext p hp

/-- Core reconstruction invariant of the chunker: from any mid-loop state,
the concatenation of the emitted parts is the pending text with some of the
separating newlines deleted. -/
theorem goLines_canDrop (limit : Nat) :
    ∀ (ls : List (List Char)) (cur : List Char),
      canDropNl (cur ++ tailJoin ls) (goLines limit ls cur).flatten = true := by
  intro ls
  induction ls with
  | nil =>
    intro cur
    rw [goLines]
    by_cases h : cur = []
    · simp [h, tailJoin, canDropNl]
    · rw [if_neg h]
      simp only [List.flatten_cons, List.flatten_nil, List.append_nil, tailJoin]
      simpa using canDropNl_refl cur
  | cons line rest ih =>
    intro cur
    rw [goLines]
    by_cases hlong : limit < line.length
    · rw [if_pos hlong]
      have hrec : canDropNl (tailJoin rest) (goLines limit rest []).flatten := by
        simpa using ih []
      have hline : canDropNl ('\n' :: (line ++ tailJoin rest))
          ((sliceLine limit line).flatten ++ (goLines limit rest []).flatten) = true := by
        apply canDropNl_drop_head
        rw [sliceLine_flatten]
        exact canDropNl_append (canDropNl_refl line) hrec
      by_cases h : cur = []
      · subst h
        simpa [tailJoin] using hline
      · rw [if_neg h]
        have := canDropNl_append (canDropNl_refl cur) hline
        simpa [tailJoin] using this
    · rw [if_neg hlong]
      by_cases hnext : limit < (if cur = [] then line else cur ++ '\n' :: line).length
      · rw [if_pos hnext]
        have hrec : canDropNl (line ++ tailJoin rest) (goLines limit rest line).flatten := by
          simpa using ih line
        have hline : canDropNl ('\n' :: (line ++ tailJoin rest))
            (goLines limit rest line).flatten = true := canDropNl_drop_head hrec
        have := canDropNl_append (canDropNl_refl cur) hline
        simpa [tailJoin] using this
      · rw [if_neg hnext]
        by_cases h : cur = []
        · subst h
          simp only [if_pos rfl]
          have hrec : canDropNl (line ++ tailJoin rest) (goLines limit rest line).flatten := by
            simpa using ih line
          have := canDropNl_drop_head hrec
          simpa [tailJoin] using this
        · simp only [if_neg h]
          have := ih (cur ++ '\n' :: line)
          simpa [tailJoin] using this

/-- Reconstruction for the top-level splitter: the concatenation of the data
of the segments of `splitMessage` is the input with some newlines deleted. -/
theorem splitMessage_canDrop (text : String) (reserve : Nat) :
    canDropNl text.data ((splitMessage text reserve).map String.data).flatten = true := by
  rw [splitMessage]
  by_cases hshort : text.length ≤ max 1 (MAX_MSG - reserve)
  · rw [if_pos hshort]
    simpa using canDropNl_refl text.data
  · rw [if_neg hshort]
    have hmap : ((goLines (max 1 (MAX_MSG - reserve)) (splitNl text.data) []).map
        (fun l => (String.mk l)) |>.map String.data) =
        goLines (max 1 (MAX_MSG - reserve)) (splitNl text.data) [] := by
      have hcomp : (String.data ∘ fun l : List Char => (⟨l⟩ : String)) = id := by
        funext x
        rfl
      rw [List.map_map, hcomp, List.map_id]
    rw [hmap]
    cases hsp : splitNl text.data with
    | nil => exact absurd hsp (splitNl_ne_nil text.data)
    | cons h t =>
      have htext : text.data = h ++ tailJoin t := by
        have := splitNl_join text.data
        rw [hsp] at this
        simp only [joinFirst] at this
        exact this.symm
      set limit := max 1 (MAX_MSG - reserve) with hlimdef
      rw [htext, goLines]
      by_cases hlong : limit < h.length
      · rw [if_pos hlong]
        simp only [if_pos rfl, List.nil_append, List.flatten_append]
        have hrec : canDropNl (tailJoin t) (goLines limit t []).flatten := by
          simpa using goLines_canDrop limit t []
        rw [sliceLine_flatten]
        exact canDropNl_append (canDropNl_refl h) hrec
      · rw [if_neg hlong]
        have hh : (if ([] : List Char) = [] then h else [] ++ '\n' :: h) = h := if_pos rfl
        rw [hh]
        rw [if_neg hlong]
        simpa using goLines_canDrop limit t h

/-- A text within the limit is returned as a single segment. -/
theorem splitMessage_short (text : String) (reserve : Nat)
    (hlen : text.length ≤ max 1 (MAX_MSG - reserve)) :
    splitMessage text reserve = [text] := by
  rw [splitMessage]
  rw [if_pos hlen]

/-- Every segment produced by `splitMessage` respects the effective limit. -/
theorem splitMessage_len_le (text : String) (reserve : Nat) :
    ∀ p ∈ splitMessage text reserve, p.length ≤ max 1 (MAX_MSG - reserve) := by
  intro p hp
  rw [splitMessage] at hp
  by_cases hshort : text.length ≤ max 1 (MAX_MSG - reserve)
  · rw [if_pos hshort] at hp
    simp at hp
    subst hp
    exact hshort
  · rw [if_neg hshort] at hp
    simp only [List.mem_map] at hp
    obtain ⟨l, hl, hpl⟩ := hp
    have hb := goLines_len_le (max 1 (MAX_MSG - reserve)) (le_max_left 1 _)
      (splitNl text.data) [] (by simp) l hl
    subst hpl
    exact hb

theorem lookupOverride_olook (st : CompatState) (n m : String) :
    lookupOverride st n m = olook st.modelCompat n m := rfl

theorem olook_ensure (mc : List (String × List (String × Compat)))
    (name n' m' : String) (v : Compat) (h : olook mc n' m' = some v) :
    olook (aset name ((alookup name mc).getD []) mc) n' m' = some v := by
  by_cases hn : n' = name
  · subst hn
    cases hd : alookup n' mc with
    | none => simp [olook, hd] at h
    | some dict =>
      simp only [olook, hd] at h
      simp only [olook, hd, Option.getD_some, alookup_aset_self]
      exact h
  · simp only [olook] at h ⊢
    rw [alookup_aset_ne _ _ _ _ hn]
    exact h

theorem olook_setIfAbsent (mc : List (String × List (String × Compat)))
    (name k : String) (w : Compat) (n' m' : String) (v : Compat)
    (h : olook mc n' m' = some v) :
    olook (setOverrideIfAbsent name k w mc) n' m' = some v := by
  by_cases hn : n' = name
  · subst hn
    cases hd : alookup n' mc with
    | none => simp [olook, hd] at h
    | some dict =>
      simp only [olook, hd] at h
      cases hk : alookup k ((alookup n' mc).getD []) with
      | some w' =>
        simp only [setOverrideIfAbsent, hk]
        simp only [olook, hd, Option.getD_some, alookup_aset_self]
        exact h
      | none =>
        simp only [setOverrideIfAbsent, hk]
        simp only [olook, hd, Option.getD_some, alookup_aset_self]
        by_cases hm : m' = k
        · subst hm
          rw [hd] at hk
          simp only [Option.getD_some] at hk
          rw [hk] at h
          simp at h
        · rw [alookup_aset_ne _ _ _ _ hm]
          exact h
  · cases hk : alookup k ((alookup name mc).getD []) with
    | some w' =>
      simp only [setOverrideIfAbsent, hk]
      simp only [olook] at h ⊢
      rw [alookup_aset_ne _ _ _ _ hn]
      exact h
    | none =>
      simp only [setOverrideIfAbsent, hk]
      simp only [olook] at h ⊢
      rw [alookup_aset_ne _ _ _ _ hn]
      exact h

theorem olook_fold_setIfAbsent (entries : List (String × Compat))
    (name : String) (mc : List (String × List (String × Compat)))
    (n' m' : String) (v : Compat) (h : olook mc n' m' = some v) :
    olook (entries.foldl (fun acc kv => setOverrideIfAbsent name kv.1 kv.2 acc) mc)
      n' m' = some v := by
  induction entries generalizing mc with
  | nil => simpa using h
  | cons kv rest ih =>
    simp only [List.foldl_cons]
    exact ih _ (olook_setIfAbsent mc name kv.1 kv.2 n' m' v h)

/-- Any stored override entry survives a `resolveCompat` call unchanged,
whatever the probe returns. -/
theorem resolveCompat_preserves_overrides (st : CompatState) (name model : String)
    (p : Provider) (probe : Except Unit ProbeResult) (n' m' : String) (v : Compat)
    (h : lookupOverride st n' m' = some v) :
    lookupOverride (resolveCompat st name model p probe).state n' m' = some v := by
  rw [resolveCompat]
  cases hov : lookupOverride st name ⟨model.data.map Char.toLower⟩ with
  | some mc => simpa using h
  | none =>
    simp only
    cases hcat : getCompatFromCatalog st model with
    | some cat => simpa using h
    | none =>
      simp only
      cases probe with
      | error e =>
        simp only [resolveProbeErr]
        rw [lookupOverride_olook] at h ⊢
        exact olook_setIfAbsent _ _ _ _ _ _ _ h
      | ok res =>
        simp only [resolveProbeOk]
        rw [lookupOverride_olook] at h ⊢
        apply olook_setIfAbsent
        apply olook_fold_setIfAbsent
        exact olook_ensure _ _ _ _ _ h

theorem foldl_add_eq_sum (f : HistItem → Nat) (l : List HistItem) (a : Nat) :
    l.foldl (fun t x => t + f x) a = a + (l.map f).sum := by
  induction l generalizing a with
  | nil => simp
  | cons x rest ih =>
    simp only [List.foldl_cons, List.map_cons, List.sum_cons]
    rw [ih]
    omega

theorem sizeOfHist_eq_sum (l : List HistItem) :
    sizeOfHist l = (l.map sizeOfItem).sum := by
  rw [sizeOfHist, foldl_add_eq_sum]
  omega

theorem sizeOfHist_cons (x : HistItem) (l : List HistItem) :
    sizeOfHist (x :: l) = sizeOfItem x + sizeOfHist l := by
  rw [sizeOfHist_eq_sum, sizeOfHist_eq_sum, List.map_cons, List.sum_cons]

theorem sizeOfHist_append (a b : List HistItem) :
    sizeOfHist (a ++ b) = sizeOfHist a + sizeOfHist b := by
  rw [sizeOfHist_eq_sum, sizeOfHist_eq_sum, sizeOfHist_eq_sum, List.map_append,
    List.sum_append]

theorem sizeOfHist_le_of_small (l : List HistItem) (c : Nat)
    (h : ∀ x ∈ l, sizeOfItem x ≤ c) : sizeOfHist l ≤ l.length * c := by
  induction l with
  | nil => simp [sizeOfHist]
  | cons x rest ih =>
    rw [sizeOfHist_cons]
    have h1 : sizeOfItem x ≤ c := h x (List.mem_cons_self x rest)
    have h2 : sizeOfHist rest ≤ rest.length * c := ih (fun y hy => h y (List.mem_cons_of_mem x hy))
    simp only [List.length_cons]
    calc sizeOfItem x + sizeOfHist rest ≤ c + rest.length * c := by omega
    _ = (rest.length + 1) * c := by ring

theorem trimCount_eq_drop (h : List HistItem) :
    trimCount h = h.drop (h.length - HISTORY_MAX_ITEMS) := by
  suffices hs : ∀ fuel l, List.length l ≤ fuel →
      trimCount l = l.drop (l.length - HISTORY_MAX_ITEMS) by
    exact hs h.length h le_rfl
  intro fuel
  induction fuel with
  | zero =>
    intro l hl
    have : l = [] := List.eq_nil_of_length_eq_zero (by omega)
    subst this
    rw [trimCount]
    simp [HISTORY_MAX_ITEMS]
  | succ n ih =>
    intro l hl
    rw [trimCount]
    by_cases hc : HISTORY_MAX_ITEMS < l.length
    · rw [dif_pos hc]
      cases l with
      | nil => simp [HISTORY_MAX_ITEMS] at hc
      | cons x rest =>
        simp only [List.tail_cons]
        rw [ih rest (by simp only [List.length_cons] at hl; omega)]
        simp only [List.length_cons]
        have hdrop : (x :: rest).drop (rest.length + 1 - HISTORY_MAX_ITEMS) =
            rest.drop (rest.length - HISTORY_MAX_ITEMS) := by
          have h1 : rest.length + 1 - HISTORY_MAX_ITEMS =
              (rest.length - HISTORY_MAX_ITEMS) + 1 := by
            have h50 : HISTORY_MAX_ITEMS = 50 := rfl
            rw [h50] at hc ⊢
            simp only [List.length_cons] at hc
            omega
          rw [h1, List.drop_succ_cons]
        rw [hdrop]
    · rw [dif_neg hc]
      simp only [not_lt] at hc
      have : l.length - HISTORY_MAX_ITEMS = 0 := by omega
      rw [this, List.drop_zero]

theorem trimCount_length_le (h : List HistItem) :
    (trimCount h).length ≤ HISTORY_MAX_ITEMS := by
  rw [trimCount_eq_drop, List.length_drop]
  omega

theorem trimBytes_eq_self (h : List HistItem) (hle : sizeOfHist h ≤ HISTORY_MAX_BYTES) :
    trimBytes h = h := by
  rw [trimBytes, dif_neg]
  simp only [not_and, not_lt]
  intro hgt
  omega

theorem trimBytes_exists_drop (h : List HistItem) :
    ∃ k, k < h.length + 1 ∧ trimBytes h = h.drop k := by
  suffices hs : ∀ fuel l, List.length l ≤ fuel → ∃ k, k < l.length + 1 ∧
      trimBytes l = l.drop k by
    exact hs h.length h le_rfl
  intro fuel
  induction fuel with
  | zero =>
    intro l hl
    have : l = [] := List.eq_nil_of_length_eq_zero (by omega)
    subst this
    exact ⟨0, by simp, by rw [trimBytes]; simp⟩
  | succ n ih =>
    intro l hl
    rw [trimBytes]
    by_cases hc : HISTORY_MAX_BYTES < sizeOfHist l ∧ 1 < l.length
    · rw [dif_pos hc]
      cases l with
      | nil => simp at hc
      | cons x rest =>
        simp only [List.tail_cons]
        obtain ⟨k, hk, heq⟩ := ih rest (by simp only [List.length_cons] at hl; omega)
        exact ⟨k + 1, by simp; omega, by rw [heq]; rw [List.drop_succ_cons]⟩
    · rw [dif_neg hc]
      exact ⟨0, by omega, by rw [List.drop_zero]⟩

theorem trimBytes_post (h : List HistItem) :
    sizeOfHist (trimBytes h) ≤ HISTORY_MAX_BYTES ∨ (trimBytes h).length ≤ 1 := by
  suffices hs : ∀ fuel l, List.length l ≤ fuel →
      sizeOfHist (trimBytes l) ≤ HISTORY_MAX_BYTES ∨ (trimBytes l).length ≤ 1 by
    exact hs h.length h le_rfl
  intro fuel
  induction fuel with
  | zero =>
    intro l hl
    have : l = [] := List.eq_nil_of_length_eq_zero (by omega)
    subst this
    right
    rw [trimBytes]
    simp
  | succ n ih =>
    intro l hl
    rw [trimBytes]
    by_cases hc : HISTORY_MAX_BYTES < sizeOfHist l ∧ 1 < l.length
    · rw [dif_pos hc]
      cases l with
      | nil => simp at hc
      | cons x rest => exact ih rest (by simp only [List.length_cons] at hl; omega)
    · rw [dif_neg hc]
      rcases not_and_or.mp hc with hs | hl2
      · left; omega
      · right; omega

theorem trimBytes_ne_nil (h : List HistItem) (hne : h ≠ []) : trimBytes h ≠ [] := by
  suffices hs : ∀ fuel l, List.length l ≤ fuel → l ≠ [] → trimBytes l ≠ [] by
    exact hs h.length h le_rfl hne
  intro fuel
  induction fuel with
  | zero =>
    intro l hl hne2
    have : l = [] := List.eq_nil_of_length_eq_zero (by omega)
    exact absurd this hne2
  | succ n ih =>
    intro l hl hne2
    rw [trimBytes]
    by_cases hc : HISTORY_MAX_BYTES < sizeOfHist l ∧ 1 < l.length
    · rw [dif_pos hc]
      cases l with
      | nil => simp at hc
      | cons x rest =>
        simp only [List.tail_cons]
        apply ih rest (by simp only [List.length_cons] at hl; omega)
        intro hr
        subst hr
        simp at hc
    · rw [dif_neg hc]
      exact hne2

theorem getLast?_drop_of_lt (l : List HistItem) (k : Nat) (hk : k < l.length) :
    (l.drop k).getLast? = l.getLast? := by
  induction l generalizing k with
  | nil => simp at hk
  | cons x rest ih =>
    cases k with
    | zero => simp
    | succ m =>
      simp only [List.drop_succ_cons]
      rw [ih m (by simp at hk; omega)]
      cases rest with
      | nil => simp at hk
      | cons y t => simp [List.getLast?_cons_cons]

theorem trimCount_getLast? (h : List HistItem) (hne : h ≠ []) :
    (trimCount h).getLast? = h.getLast? := by
  rw [trimCount_eq_drop]
  apply getLast?_drop_of_lt
  have : 0 < h.length := List.length_pos.mpr hne
  simp [HISTORY_MAX_ITEMS]
  omega

theorem trimBytes_getLast? (h : List HistItem) (hne : h ≠ []) :
    (trimBytes h).getLast? = h.getLast? := by
  obtain ⟨k, hk, heq⟩ := trimBytes_exists_drop h
  rw [heq]
  by_cases hkl : k < h.length
  · exact getLast?_drop_of_lt h k hkl
  · exfalso
    have : trimBytes h = [] := by
      rw [heq]
      apply List.drop_eq_nil_of_le
      omega
    exact trimBytes_ne_nil h hne this

theorem alookup_adel_self (k : String) (l : List (String × α)) :
    alookup k (adel k l) = none := by
  induction l with
  | nil => simp [adel, alookup]
  | cons hd tl ih =>
    obtain ⟨k', v'⟩ := hd
    by_cases h : k' = k <;> simp [adel, alookup, h, ih]

theorem keys_adel (k : String) (l : List (String × α)) :
    (adel k l).map Prod.fst = (l.map Prod.fst).filter (fun x => x ≠ k) := by
  induction l with
  | nil => simp [adel]
  | cons hd tl ih =>
    obtain ⟨k', v'⟩ := hd
    by_cases h : k' = k <;> simp [adel, h, ih, List.filter_cons]

theorem adel_of_not_mem (k : String) (l : List (String × α))
    (h : k ∉ l.map Prod.fst) : adel k l = l := by
  induction l with
  | nil => simp [adel]
  | cons hd tl ih =>
    obtain ⟨k', v'⟩ := hd
    simp only [List.map_cons, List.mem_cons] at h
    push_neg at h
    obtain ⟨h1, h2⟩ := h
    simp only [adel]
    rw [if_neg (fun he => h1 (Eq.symm he))]
    rw [ih h2]

theorem alookup_eq_none_of_not_mem (k : String) (l : List (String × α))
    (h : k ∉ l.map Prod.fst) : alookup k l = none := by
  induction l with
  | nil => rfl
  | cons hd tl ih =>
    obtain ⟨k', v'⟩ := hd
    simp only [List.map_cons, List.mem_cons] at h
    push_neg at h
    obtain ⟨h1, h2⟩ := h
    simp only [alookup]
    rw [if_neg (fun he => h1 (Eq.symm he))]
    exact ih h2

theorem totalSize_nil : totalSize [] = 0 := rfl

theorem totalSize_cons (kv : String × List HistItem) (l : List (String × List HistItem)) :
    totalSize (kv :: l) = sizeOfHist kv.2 + totalSize l := by
  simp [totalSize]

theorem totalSize_adel (k : String) (l : List (String × List HistItem))
    (hnd : (l.map Prod.fst).Nodup) :
    totalSize (adel k l) + sizeOfHist ((alookup k l).getD []) = totalSize l := by
  induction l with
  | nil => simp [adel, alookup, totalSize, sizeOfHist]
  | cons hd tl ih =>
    obtain ⟨k', v'⟩ := hd
    simp only [List.map_cons, List.nodup_cons] at hnd
    obtain ⟨hk', hnd2⟩ := hnd
    by_cases h : k' = k
    · subst h
      have e1 : adel k' ((k', v') :: tl) = adel k' tl := by
        simp [adel]
      have e2 : alookup k' ((k', v') :: tl) = some v' := by
        simp [alookup]
      rw [e1, e2, adel_of_not_mem k' tl hk', totalSize_cons]
      simp only [Option.getD_some]
      omega
    · have e1 : adel k ((k', v') :: tl) = (k', v') :: adel k tl := by
        simp [adel, h]
      have e2 : alookup k ((k', v') :: tl) = alookup k tl := by
        simp [alookup, h]
      rw [e1, e2, totalSize_cons, totalSize_cons]
      have := ih hnd2
      omega

theorem keys_aset (k : String) (v : α) (l : List (String × α)) :
    (aset k v l).map Prod.fst =
      (if k ∈ l.map Prod.fst then l.map Prod.fst else l.map Prod.fst ++ [k]) := by
  induction l with
  | nil => simp [aset]
  | cons hd tl ih =>
    obtain ⟨k', v'⟩ := hd
    by_cases h : k' = k
    · subst h
      simp [aset]
    · have hks : ¬ k = k' := fun he => h (Eq.symm he)
      simp only [aset, if_neg h, List.map_cons, List.mem_cons]
      rw [ih]
      by_cases hm : k ∈ tl.map Prod.fst
      · simp [hm, hks]
      · simp [hm, hks]

theorem nodup_keys_aset (k : String) (v : α) (l : List (String × α))
    (hnd : (l.map Prod.fst).Nodup) : ((aset k v l).map Prod.fst).Nodup := by
  rw [keys_aset]
  by_cases hm : k ∈ l.map Prod.fst
  · simpa [hm] using hnd
  · simp only [hm, if_false]
    rw [List.nodup_append]
    exact ⟨hnd, List.nodup_singleton k, by simpa using hm⟩

/-- The eviction loop only ever removes sessions: a session is afterwards
either untouched or gone. -/
theorem evictLoop_lookup (sorted : List String) (b : Nat) (st : HistState) (j : String) :
    alookup j (evictLoop sorted b st).histories = alookup j st.histories ∨
      alookup j (evictLoop sorted b st).histories = none := by
  induction sorted generalizing b st with
  | nil => left; rfl
  | cons v rest ih =>
    rw [evictLoop]
    by_cases hc : HISTORY_GLOBAL_MAX_SESSIONS < (v :: rest).length ∨
        HISTORY_GLOBAL_MAX_BYTES < b
    · rw [if_pos hc]
      rcases ih (b - sizeOfHist ((alookup v st.histories).getD []))
          ⟨adel v st.histories, adel v st.histMeta⟩ with h | h
      · by_cases hj : j = v
        · subst hj
          right
          rw [h]
          exact alookup_adel_self j st.histories
        · left
          rw [h]
          exact alookup_adel_ne v j st.histories hj
      · right
        exact h
    · rw [if_neg hc]
      left
      rfl

/-- After the eviction loop, both global caps hold (given the loop's
invariants: the sorted list enumerates the sessions and the byte counter is
exact). -/
theorem evictLoop_bounds (sorted : List String) (b : Nat) (st : HistState)
    (hperm : (st.histories.map Prod.fst).Perm sorted)
    (hnd : (st.histories.map Prod.fst).Nodup)
    (hb : b = totalSize st.histories) :
    (evictLoop sorted b st).histories.length ≤ HISTORY_GLOBAL_MAX_SESSIONS ∧
      totalSize (evictLoop sorted b st).histories ≤ HISTORY_GLOBAL_MAX_BYTES := by
  induction sorted generalizing b st with
  | nil =>
    have hmape : st.histories.map Prod.fst = [] := List.Perm.eq_nil hperm
    have hnil : st.histories = [] := by
      cases hh : st.histories with
      | nil => rfl
      | cons x t =>
        rw [hh] at hmape
        simp at hmape
    rw [evictLoop]
    rw [hnil]
    constructor
    · simp [HISTORY_GLOBAL_MAX_SESSIONS]
    · simp [totalSize, HISTORY_GLOBAL_MAX_BYTES]
  | cons v rest ih =>
    rw [evictLoop]
    by_cases hc : HISTORY_GLOBAL_MAX_SESSIONS < (v :: rest).length ∨
        HISTORY_GLOBAL_MAX_BYTES < b
    · rw [if_pos hc]
      apply ih
      · rw [keys_adel]
        have h1 : (st.histories.map Prod.fst).filter (fun x => x ≠ v) |>.Perm
            ((v :: rest).filter (fun x => x ≠ v)) := List.Perm.filter _ hperm
        have hvrest : v ∉ rest := by
          have : (v :: rest).Nodup := hperm.nodup_iff.mp hnd
          simp only [List.nodup_cons] at this
          exact this.1
        have h2 : (v :: rest).filter (fun x => x ≠ v) = rest := by
          simp only [List.filter_cons]
          have hv : ¬ (v ≠ v) := fun hx => hx rfl
          rw [if_neg (by simpa using hv)]
          apply List.filter_eq_self.mpr
          intro a ha
          have hav : a ≠ v := by
            intro he
            rw [he] at ha
            exact hvrest ha
          simpa using hav
        rw [h2] at h1
        exact h1
      · rw [keys_adel]
        exact List.Nodup.filter _ hnd
      · have := totalSize_adel v st.histories hnd
        simp only
        omega
    · rw [if_neg hc]
      rcases not_or.mp hc with ⟨h1, h2⟩
      simp only [not_lt] at h1 h2
      constructor
      · have : st.histories.length = (v :: rest).length := by
          have := hperm.length_eq
          simpa using this
        omega
      · omega

theorem insertByTime_perm (meta : List (String × Nat)) (x : String) (l : List String) :
    (insertByTime meta x l).Perm (x :: l) := by
  induction l with
  | nil => simp [insertByTime]
  | cons y ys ih =>
    rw [insertByTime]
    by_cases h : metaTime meta x ≤ metaTime meta y
    · rw [if_pos h]
    · rw [if_neg h]
      have h1 : (y :: insertByTime meta x ys).Perm (y :: x :: ys) := List.Perm.cons y ih
      exact h1.trans (List.Perm.swap x y ys)

theorem sortByTime_perm (meta : List (String × Nat)) (l : List String) :
    (sortByTime meta l).Perm l := by
  induction l with
  | nil => simp [sortByTime]
  | cons x xs ih =>
    rw [sortByTime]
    exact (insertByTime_perm meta x (sortByTime meta xs)).trans (List.Perm.cons x ih)

theorem insertByTime_sorted (meta : List (String × Nat)) (x : String) (l : List String)
    (hs : l.Sorted (fun a b => metaTime meta a ≤ metaTime meta b)) :
    (insertByTime meta x l).Sorted (fun a b => metaTime meta a ≤ metaTime meta b) := by
  induction l with
  | nil => simp [insertByTime]
  | cons y ys ih =>
    rw [insertByTime]
    rw [List.sorted_cons] at hs
    obtain ⟨hy, hys⟩ := hs
    by_cases h : metaTime meta x ≤ metaTime meta y
    · rw [if_pos h]
      rw [List.sorted_cons]
      constructor
      · intro b hb
        simp only [List.mem_cons] at hb
        rcases hb with hb | hb
        · subst hb; exact h
        · exact le_trans h (hy b hb)
      · rw [List.sorted_cons]
        exact ⟨hy, hys⟩
    · rw [if_neg h]
      rw [List.sorted_cons]
      constructor
      · intro b hb
        have := (insertByTime_perm meta x ys).mem_iff.mp hb
        simp only [List.mem_cons] at this
        rcases this with hb2 | hb2
        · subst hb2; omega
        · exact hy b hb2
      · exact ih hys

theorem sortByTime_sorted (meta : List (String × Nat)) (l : List String) :
    (sortByTime meta l).Sorted (fun a b => metaTime meta a ≤ metaTime meta b) := by
  induction l with
  | nil => simp [sortByTime]
  | cons x xs ih =>
    rw [sortByTime]
    exact insertByTime_sorted meta x (sortByTime meta xs) ih

theorem insertByTime_of_max (meta : List (String × Nat)) (x : String) (l : List String)
    (h : ∀ y ∈ l, metaTime meta y < metaTime meta x) :
    insertByTime meta x l = l ++ [x] := by
  induction l with
  | nil => simp [insertByTime]
  | cons y ys ih =>
    rw [insertByTime]
    have hy := h y (List.mem_cons_self y ys)
    rw [if_neg (by omega)]
    rw [ih (fun z hz => h z (List.mem_cons_of_mem y hz))]
    simp

/-- The eviction loop removes exactly a prefix of the sorted session list. -/
theorem evictLoop_prefix_del (sorted : List String) (b : Nat) (st : HistState) :
    ∃ k, evictLoop sorted b st = applyDel (sorted.take k) st := by
  induction sorted generalizing b st with
  | nil => exact ⟨0, rfl⟩
  | cons v rest ih =>
    rw [evictLoop]
    by_cases hc : HISTORY_GLOBAL_MAX_SESSIONS < (v :: rest).length ∨
        HISTORY_GLOBAL_MAX_BYTES < b
    · rw [if_pos hc]
      obtain ⟨k, hk⟩ := ih (b - sizeOfHist ((alookup v st.histories).getD []))
        ⟨adel v st.histories, adel v st.histMeta⟩
      exact ⟨k + 1, by rw [hk]; rfl⟩
    · rw [if_neg hc]
      exact ⟨0, rfl⟩

/-- If the last session in eviction order has an in-budget byte size, the
eviction loop never removes it. -/
theorem evictLoop_preserve_last (sorted : List String) (b : Nat) (st : HistState)
    (id : String) :
    sorted.getLast? = some id →
    sorted.Nodup →
    (st.histories.map Prod.fst).Perm sorted →
    b = totalSize st.histories →
    sizeOfHist ((alookup id st.histories).getD []) ≤ HISTORY_GLOBAL_MAX_BYTES →
    alookup id (evictLoop sorted b st).histories = alookup id st.histories := by
  induction sorted generalizing b st with
  | nil => intro hlast; simp at hlast
  | cons v rest ih =>
    intro hlast hnd hperm hb hsize
    rw [evictLoop]
    by_cases hre : rest = []
    · subst hre
      simp only [List.getLast?_singleton, Option.some_inj] at hlast
      subst hlast
      have hlen1 : st.histories.length = 1 := by
        have := hperm.length_eq
        simpa using this
      obtain ⟨e, he⟩ := List.length_eq_one.mp hlen1
      have hkey : e.1 = v := by
        have hmap : st.histories.map Prod.fst = [e.1] := by
          rw [he]
          simp
        rw [hmap] at hperm
        have := hperm.mem_iff.mp (show e.1 ∈ [e.1] by simp)
        simpa using this
      have hlook : alookup v st.histories = some e.2 := by
        rw [he]
        obtain ⟨k1, v1⟩ := e
        simp only at hkey
        subst hkey
        simp [alookup]
      have hbv : b = sizeOfHist e.2 := by
        rw [hb, he, totalSize_cons, totalSize_nil]
        omega
      rw [if_neg]
      rw [not_or]
      constructor
      · simp [HISTORY_GLOBAL_MAX_SESSIONS]
      · simp only [not_lt]
        rw [hbv]
        rw [hlook] at hsize
        simpa using hsize
    · have hlast2 : rest.getLast? = some id := by
        cases hr2 : rest with
        | nil => exact absurd hr2 hre
        | cons a t =>
          rw [hr2] at hlast
          rw [List.getLast?_cons_cons] at hlast
          exact hlast
      have hidmem : id ∈ rest := List.mem_of_mem_getLast? hlast2
      have hvnotin : v ∉ rest := (List.nodup_cons.mp hnd).1
      have hvne : v ≠ id := fun he => hvnotin (he ▸ hidmem)
      have hidne : id ≠ v := fun he => hvne (Eq.symm he)
      by_cases hc : HISTORY_GLOBAL_MAX_SESSIONS < (v :: rest).length ∨
          HISTORY_GLOBAL_MAX_BYTES < b
      · rw [if_pos hc]
        have hnd2 : rest.Nodup := (List.nodup_cons.mp hnd).2
        have hndk : (st.histories.map Prod.fst).Nodup := hperm.nodup_iff.mpr hnd
        have hperm2 : ((adel v st.histories).map Prod.fst).Perm rest := by
          rw [keys_adel]
          have h1 := List.Perm.filter (fun x => x ≠ v) hperm
          have h2 : (v :: rest).filter (fun x => x ≠ v) = rest := by
            simp only [List.filter_cons]
            have hv : ¬ (v ≠ v) := fun hx => hx rfl
            rw [if_neg (by simpa using hv)]
            apply List.filter_eq_self.mpr
            intro a ha
            have hav : a ≠ v := by
              intro he
              rw [he] at ha
              exact hvnotin ha
            simpa using hav
          rw [h2] at h1
          exact h1
        have hstep := ih (b - sizeOfHist ((alookup v st.histories).getD []))
          ⟨adel v st.histories, adel v st.histMeta⟩ hlast2 hnd2 hperm2
          (by
            simp only
            have := totalSize_adel v st.histories hndk
            omega)
          (by
            simp only
            rw [alookup_adel_ne v id st.histories hidne]
            exact hsize)
        rw [hstep]
        simp only
        exact alookup_adel_ne v id st.histories hidne
      · rw [if_neg hc]

theorem alookup_mem (k : String) (v : α) (l : List (String × α))
    (h : alookup k l = some v) : (k, v) ∈ l := by
  induction l with
  | nil => simp [alookup] at h
  | cons hd tl ih =>
    obtain ⟨k', v'⟩ := hd
    by_cases he : k' = k
    · subst he
      have he2 : alookup k' ((k', v') :: tl) = some v' := by
        simp [alookup]
      rw [he2] at h
      simp only [Option.some_inj] at h
      subst h
      exact List.mem_cons_self _ _
    · simp only [alookup, if_neg he] at h
      exact List.mem_cons_of_mem _ (ih h)

theorem insertByTime_getLast?_le (meta : List (String × Nat)) (a z : String)
    (l : List String) (hl : l.getLast? = some z)
    (hle : metaTime meta a ≤ metaTime meta z) :
    (insertByTime meta a l).getLast? = some z := by
  induction l with
  | nil => simp at hl
  | cons y ys ih =>
    rw [insertByTime]
    cases hys : ys with
    | nil =>
      subst hys
      simp only [List.getLast?_singleton, Option.some_inj] at hl
      subst hl
      rw [if_pos hle]
      simp [List.getLast?_cons_cons]
    | cons b t =>
      have hl2 : ys.getLast? = some z := by
        rw [hys] at hl ⊢
        rw [List.getLast?_cons_cons] at hl
        exact hl
      rw [← hys]
      by_cases h : metaTime meta a ≤ metaTime meta y
      · rw [if_pos h]
        rw [List.getLast?_cons_cons]
        exact hl
      · rw [if_neg h]
        have hrec := ih hl2
        have hne : insertByTime meta a ys ≠ [] := by
          intro hnil
          rw [hnil] at hrec
          simp at hrec
        cases hit : insertByTime meta a ys with
        | nil => exact absurd hit hne
        | cons c u =>
          rw [List.getLast?_cons_cons]
          rw [← hit]
          exact hrec

theorem sortByTime_max_last (meta : List (String × Nat)) (l : List String) (id : String)
    (hmem : id ∈ l) (hnd : l.Nodup)
    (hmax : ∀ y ∈ l, y ≠ id → metaTime meta y < metaTime meta id) :
    (sortByTime meta l).getLast? = some id := by
  induction l with
  | nil => simp at hmem
  | cons a xs ih =>
    rw [sortByTime]
    by_cases ha : a = id
    · subst ha
      have hnotin : a ∉ xs := (List.nodup_cons.mp hnd).1
      have hall : ∀ y ∈ sortByTime meta xs, metaTime meta y < metaTime meta a := by
        intro y hy
        have hyxs : y ∈ xs := (sortByTime_perm meta xs).mem_iff.mp hy
        have hyne : y ≠ a := fun he => hnotin (he ▸ hyxs)
        exact hmax y (List.mem_cons_of_mem a hyxs) hyne
      rw [insertByTime_of_max meta a (sortByTime meta xs) hall]
      simp
    · have hmem2 : id ∈ xs := by
        rcases List.mem_cons.mp hmem with h | h
        · exact absurd (Eq.symm h) ha
        · exact h
      have hrec := ih hmem2 (List.nodup_cons.mp hnd).2
        (fun y hy hyne => hmax y (List.mem_cons_of_mem a hy) hyne)
      apply insertByTime_getLast?_le meta a id (sortByTime meta xs) hrec
      have := hmax a (List.mem_cons_self a xs) ha
      omega

/-- `pruneGlobalHistories` enforces both global caps whenever the store has
no duplicate session keys. -/
theorem pruneGlobal_bounds (st : HistState)
    (hnd : (st.histories.map Prod.fst).Nodup) :
    (pruneGlobalHistories st).histories.length ≤ HISTORY_GLOBAL_MAX_SESSIONS ∧
      totalSize (pruneGlobalHistories st).histories ≤ HISTORY_GLOBAL_MAX_BYTES := by
  rw [pruneGlobalHistories]
  by_cases hids : (st.histories.map Prod.fst).isEmpty
  · rw [if_pos hids]
    have hnil : st.histories = [] := by
      cases hh : st.histories with
      | nil => rfl
      | cons x t =>
        rw [hh] at hids
        simp at hids
    rw [hnil]
    constructor
    · simp [HISTORY_GLOBAL_MAX_SESSIONS]
    · simp [totalSize, HISTORY_GLOBAL_MAX_BYTES]
  · rw [if_neg hids]
    by_cases hcap : (st.histories.map Prod.fst).length ≤ HISTORY_GLOBAL_MAX_SESSIONS ∧
        totalSize st.histories ≤ HISTORY_GLOBAL_MAX_BYTES
    · rw [if_pos hcap]
      constructor
      · have := hcap.1
        simpa using this
      · exact hcap.2
    · rw [if_neg hcap]
      apply evictLoop_bounds
      · exact (sortByTime_perm st.histMeta (st.histories.map Prod.fst)).symm
      · exact hnd
      · rfl

/-- What `pruneGlobalHistories` removes is exactly a prefix of the sessions
sorted by oldest last-write time first. -/
theorem pruneGlobal_prefix_del (st : HistState) :
    ∃ k, pruneGlobalHistories st =
      applyDel ((sortByTime st.histMeta (st.histories.map Prod.fst)).take k) st := by
  rw [pruneGlobalHistories]
  by_cases hids : (st.histories.map Prod.fst).isEmpty
  · rw [if_pos hids]
    exact ⟨0, rfl⟩
  · rw [if_neg hids]
    by_cases hcap : (st.histories.map Prod.fst).length ≤ HISTORY_GLOBAL_MAX_SESSIONS ∧
        totalSize st.histories ≤ HISTORY_GLOBAL_MAX_BYTES
    · rw [if_pos hcap]
      exact ⟨0, rfl⟩
    · rw [if_neg hcap]
      exact evictLoop_prefix_del _ _ _

/-- After `pushHist` the stored session is the appended-then-trimmed list,
unless global eviction removed the session entirely. -/
theorem pushHist_session_shape (st : HistState) (id role content : String) (now : Nat) :
    histFor (pushHist st id role content now) id =
      trimBytes (trimCount (histFor st id ++ [⟨role, content⟩])) ∨
    histFor (pushHist st id role content now) id = [] := by
  rw [pushHist, histFor]
  set h3 := trimBytes (trimCount ((alookup id st.histories).getD [] ++ [⟨role, content⟩]))
    with hh3
  set st1 : HistState := ⟨aset id h3 st.histories, aset id now st.histMeta⟩ with hst1
  have hlook1 : alookup id st1.histories = some h3 := alookup_aset_self id h3 st.histories
  rw [pruneGlobalHistories]
  by_cases hids : (st1.histories.map Prod.fst).isEmpty
  · rw [if_pos hids]
    left
    rw [hlook1]
    rfl
  · rw [if_neg hids]
    by_cases hcap : (st1.histories.map Prod.fst).length ≤ HISTORY_GLOBAL_MAX_SESSIONS ∧
        totalSize st1.histories ≤ HISTORY_GLOBAL_MAX_BYTES
    · rw [if_pos hcap]
      left
      rw [hlook1]
      rfl
    · rw [if_neg hcap]
      rcases evictLoop_lookup (sortByTime st1.histMeta (st1.histories.map Prod.fst))
          (totalSize st1.histories) st1 id with h | h
      · left
        rw [h, hlook1]
        rfl
      · right
        rw [h]
        rfl

/-- After `pushHist` the session never exceeds 50 turns. -/
theorem pushHist_count_le (st : HistState) (id role content : String) (now : Nat) :
    (histFor (pushHist st id role content now) id).length ≤ HISTORY_MAX_ITEMS := by
  rcases pushHist_session_shape st id role content now with h | h
  · rw [h]
    obtain ⟨k, _, hk⟩ := trimBytes_exists_drop (trimCount (histFor st id ++ [⟨role, content⟩]))
    rw [hk, List.length_drop]
    have := trimCount_length_le (histFor st id ++ [⟨role, content⟩])
    omega
  · rw [h]
    simp [HISTORY_MAX_ITEMS]

/-- After `pushHist` the session is within the 64 KiB budget unless a single
turn remains. -/
theorem pushHist_bytes_or_single (st : HistState) (id role content : String) (now : Nat) :
    sizeOfHist (histFor (pushHist st id role content now) id) ≤ HISTORY_MAX_BYTES ∨
      (histFor (pushHist st id role content now) id).length ≤ 1 := by
  rcases pushHist_session_shape st id role content now with h | h
  · rw [h]
    exact trimBytes_post _
  · rw [h]
    right
    simp

/-- After `pushHist` the global store respects both global caps. -/
theorem pushHist_global_bounds (st : HistState) (id role content : String) (now : Nat)
    (hnd : (st.histories.map Prod.fst).Nodup) :
    (pushHist st id role content now).histories.length ≤ HISTORY_GLOBAL_MAX_SESSIONS ∧
      totalSize (pushHist st id role content now).histories ≤ HISTORY_GLOBAL_MAX_BYTES := by
  rw [pushHist]
  apply pruneGlobal_bounds
  exact nodup_keys_aset id _ st.histories hnd

/-- If the appended turn fits the global byte budget and carries a strictly
fresher timestamp than every existing session, the append survives: the
session is non-empty afterwards and its newest turn is the appended one. -/
theorem pushHist_newest (st : HistState) (id role content : String) (now : Nat)
    (hnd : (st.histories.map Prod.fst).Nodup)
    (hmeta : ∀ kv ∈ st.histMeta, kv.2 < now)
    (hpos : 0 < now)
    (hsz : sizeOfItem ⟨role, content⟩ ≤ HISTORY_GLOBAL_MAX_BYTES) :
    histFor (pushHist st id role content now) id ≠ [] ∧
      (histFor (pushHist st id role content now) id).getLast? =
        some ⟨role, content⟩ := by
  set x : HistItem := ⟨role, content⟩ with hx
  set h0 := (alookup id st.histories).getD [] with hh0
  set h1 := h0 ++ [x] with hh1
  set h2 := trimCount h1 with hh2
  set h3 := trimBytes h2 with hh3
  have h1ne : h1 ≠ [] := by simp [hh1]
  have h2ne : h2 ≠ [] := by
    rw [hh2, trimCount_eq_drop]
    intro hnil
    have := List.drop_eq_nil_iff_le.mp hnil
    have hlen : 0 < h1.length := List.length_pos.mpr h1ne
    have : HISTORY_MAX_ITEMS = 50 := rfl
    omega
  have h3ne : h3 ≠ [] := trimBytes_ne_nil h2 h2ne
  have hlast1 : h1.getLast? = some x := by
    rw [hh1]
    exact List.getLast?_concat h0
  have hlast2 : h2.getLast? = some x := by
    rw [hh2, trimCount_getLast? h1 h1ne]
    exact hlast1
  have hlast3 : h3.getLast? = some x := by
    rw [hh3, trimBytes_getLast? h2 h2ne]
    exact hlast2
  have hsz3 : sizeOfHist h3 ≤ HISTORY_GLOBAL_MAX_BYTES := by
    rcases trimBytes_post h2 with hb | hl
    · rw [← hh3] at hb
      have : HISTORY_MAX_BYTES ≤ HISTORY_GLOBAL_MAX_BYTES := by
        simp [HISTORY_MAX_BYTES, HISTORY_GLOBAL_MAX_BYTES]
      omega
    · rw [← hh3] at hl
      have hlen1 : h3.length = 1 := by
        have := List.length_pos.mpr h3ne
        omega
      obtain ⟨y, hy⟩ := List.length_eq_one.mp hlen1
      have : y = x := by
        rw [hy] at hlast3
        simpa using hlast3
      subst this
      rw [hy, sizeOfHist_cons]
      simp only [sizeOfHist, List.foldl_nil]
      omega
  rw [pushHist]
  simp only [← hh0, ← hh1, ← hh2, ← hh3]
  set st1 : HistState := ⟨aset id h3 st.histories, aset id now st.histMeta⟩ with hst1
  have hlook1 : alookup id st1.histories = some h3 := alookup_aset_self id h3 st.histories
  have hidmem : id ∈ st1.histories.map Prod.fst := by
    show id ∈ (aset id h3 st.histories).map Prod.fst
    rw [keys_aset]
    by_cases hm : id ∈ st.histories.map Prod.fst
    · simpa [hm] using hm
    · simp [hm]
  have hnd1 : (st1.histories.map Prod.fst).Nodup := nodup_keys_aset id h3 st.histories hnd
  have hmax : ∀ y ∈ st1.histories.map Prod.fst, y ≠ id →
      metaTime st1.histMeta y < metaTime st1.histMeta id := by
    intro y hy hyne
    have hidt : metaTime st1.histMeta id = now := by
      show metaTime (aset id now st.histMeta) id = now
      rw [metaTime, alookup_aset_self]
      rfl
    have hyt : metaTime st1.histMeta y = metaTime st.histMeta y := by
      show metaTime (aset id now st.histMeta) y = metaTime st.histMeta y
      rw [metaTime, alookup_aset_ne id y now st.histMeta hyne, metaTime]
    rw [hidt, hyt]
    cases hlk : alookup y st.histMeta with
    | none => rw [metaTime, hlk]; simpa using hpos
    | some t =>
      rw [metaTime, hlk]
      have := hmeta (y, t) (alookup_mem y t st.histMeta hlk)
      simpa using this
  have hsortlast : (sortByTime st1.histMeta (st1.histories.map Prod.fst)).getLast? =
      some id := sortByTime_max_last st1.histMeta _ id hidmem hnd1 hmax
  rw [pruneGlobalHistories]
  by_cases hids : (st1.histories.map Prod.fst).isEmpty
  · exfalso
    cases hh : st1.histories with
    | nil =>
      rw [hh] at hidmem
      simp at hidmem
    | cons a t =>
      rw [hh] at hids
      simp at hids
  · rw [if_neg hids]
    by_cases hcap : (st1.histories.map Prod.fst).length ≤ HISTORY_GLOBAL_MAX_SESSIONS ∧
        totalSize st1.histories ≤ HISTORY_GLOBAL_MAX_BYTES
    · rw [if_pos hcap]
      rw [histFor, hlook1]
      exact ⟨by simpa using h3ne, by simpa using hlast3⟩
    · rw [if_neg hcap]
      have hndsorted : (sortByTime st1.histMeta (st1.histories.map Prod.fst)).Nodup :=
        (sortByTime_perm st1.histMeta _).nodup_iff.mpr hnd1
      have hpermk : (st1.histories.map Prod.fst).Perm
          (sortByTime st1.histMeta (st1.histories.map Prod.fst)) :=
        (sortByTime_perm st1.histMeta _).symm
      have hszlook : sizeOfHist ((alookup id st1.histories).getD []) ≤
          HISTORY_GLOBAL_MAX_BYTES := by
        rw [hlook1]
        simpa using hsz3
      have hpres := evictLoop_preserve_last _ _ st1 id hsortlast hndsorted hpermk rfl hszlook
      rw [histFor, hpres, hlook1]
      exact ⟨by simpa using h3ne, by simpa using hlast3⟩

theorem sessStep_small (S : List HistItem) (x : HistItem) (c : Nat)
    (hS : ∀ y ∈ S, sizeOfItem y ≤ c) (hx : sizeOfItem x ≤ c)
    (hc : HISTORY_MAX_ITEMS * c ≤ HISTORY_MAX_BYTES) (hlen : S.length ≤ HISTORY_MAX_ITEMS) :
    sessStep S x = (S ++ [x]).drop ((S ++ [x]).length - HISTORY_MAX_ITEMS) := by
  rw [sessStep, trimCount_eq_drop]
  apply trimBytes_eq_self
  have hsmall : ∀ y ∈ (S ++ [x]).drop ((S ++ [x]).length - HISTORY_MAX_ITEMS),
      sizeOfItem y ≤ c := by
    intro y hy
    have hmem : y ∈ S ++ [x] := List.mem_of_mem_drop hy
    rcases List.mem_append.mp hmem with h | h
    · exact hS y h
    · simp only [List.mem_singleton] at h
      subst h
      exact hx
  have hlend : ((S ++ [x]).drop ((S ++ [x]).length - HISTORY_MAX_ITEMS)).length ≤
      HISTORY_MAX_ITEMS := by
    rw [List.length_drop]
    omega
  calc sizeOfHist ((S ++ [x]).drop ((S ++ [x]).length - HISTORY_MAX_ITEMS)) ≤
      ((S ++ [x]).drop ((S ++ [x]).length - HISTORY_MAX_ITEMS)).length * c :=
        sizeOfHist_le_of_small _ c hsmall
    _ ≤ HISTORY_MAX_ITEMS * c := Nat.mul_le_mul_right c hlend
    _ ≤ HISTORY_MAX_BYTES := hc

/-- The list-level effect of a burst of small appends: the last 50 turns
survive, in order. -/
theorem foldl_sessStep_drop (L S : List HistItem) (c : Nat)
    (hS : ∀ y ∈ S, sizeOfItem y ≤ c) (hL : ∀ y ∈ L, sizeOfItem y ≤ c)
    (hc : HISTORY_MAX_ITEMS * c ≤ HISTORY_MAX_BYTES)
    (hlen : S.length ≤ HISTORY_MAX_ITEMS) :
    L.foldl sessStep S = (S ++ L).drop ((S ++ L).length - HISTORY_MAX_ITEMS) := by
  induction L generalizing S with
  | nil =>
    simp only [List.foldl_nil, List.append_nil]
    have : S.length - HISTORY_MAX_ITEMS = 0 := by omega
    rw [this, List.drop_zero]
  | cons x L2 ih =>
    simp only [List.foldl_cons]
    have hx : sizeOfItem x ≤ c := hL x (List.mem_cons_self x L2)
    have hstep := sessStep_small S x c hS hx hc hlen
    rw [hstep]
    set d := (S ++ [x]).length - HISTORY_MAX_ITEMS with hd
    have hdle : d ≤ (S ++ [x]).length := by omega
    have hS2 : ∀ y ∈ (S ++ [x]).drop d, sizeOfItem y ≤ c := by
      intro y hy
      have hmem : y ∈ S ++ [x] := List.mem_of_mem_drop hy
      rcases List.mem_append.mp hmem with h | h
      · exact hS y h
      · simp only [List.mem_singleton] at h
        subst h
        exact hx
    have hL2 : ∀ y ∈ L2, sizeOfItem y ≤ c := fun y hy => hL y (List.mem_cons_of_mem x hy)
    have hlen2 : ((S ++ [x]).drop d).length ≤ HISTORY_MAX_ITEMS := by
      rw [List.length_drop]
      omega
    rw [ih ((S ++ [x]).drop d) hS2 hL2 hlen2]
    rw [← List.drop_append_of_le_length hdle]
    rw [List.drop_drop]
    have hassoc : (S ++ [x]) ++ L2 = S ++ x :: L2 := by simp
    rw [hassoc]
    have h50 : HISTORY_MAX_ITEMS = 50 := rfl
    have hidx : d + ((List.drop d (S ++ x :: L2)).length - HISTORY_MAX_ITEMS) =
        (S ++ x :: L2).length - HISTORY_MAX_ITEMS := by
      have hg : (List.drop d (S ++ x :: L2)).length = S.length + (L2.length + 1) - d := by
        rw [List.length_drop, List.length_append, List.length_cons]
      rw [hg]
      rw [h50] at hd ⊢
      rw [List.length_append, List.length_singleton] at hd
      rw [List.length_append, List.length_cons]
      omega
    rw [hidx]

/-- One `pushHist` on a single-session store stays a single-session store
when the trimmed session fits the global budget. -/
theorem pushHist_single_session (S : List HistItem) (M : List (String × Nat))
    (id role content : String) (now : Nat)
    (hsz : sizeOfHist (sessStep S ⟨role, content⟩) ≤ HISTORY_GLOBAL_MAX_BYTES) :
    pushHist ⟨[(id, S)], M⟩ id role content now =
      ⟨[(id, sessStep S ⟨role, content⟩)], aset id now M⟩ := by
  rw [pushHist]
  have hlook : alookup id [(id, S)] = some S := by simp [alookup]
  rw [hlook]
  simp only [Option.getD_some]
  have hset : aset id (trimBytes (trimCount (S ++ [⟨role, content⟩]))) [(id, S)] =
      [(id, sessStep S ⟨role, content⟩)] := by
    simp [aset, sessStep]
  rw [hset]
  rw [pruneGlobalHistories]
  rw [if_neg (by simp)]
  rw [if_pos]
  constructor
  · simp [HISTORY_GLOBAL_MAX_SESSIONS]
  · rw [totalSize_cons, totalSize_nil]
    simpa using hsz

/-- A burst of small appends into an empty store leaves exactly the most
recent 50 turns, in order. -/
theorem pushHistSeq_scenario (id : String) (L : List HistItem) (c : Nat)
    (hc : HISTORY_MAX_ITEMS * c ≤ HISTORY_MAX_BYTES)
    (hL : ∀ y ∈ L, sizeOfItem y ≤ c) :
    histFor (pushHistSeq ⟨[], []⟩ id L) id =
      L.drop (L.length - HISTORY_MAX_ITEMS) := by
  have key : ∀ (L2 : List HistItem) (S : List HistItem) (M : List (String × Nat)),
      (∀ y ∈ S, sizeOfItem y ≤ c) → (∀ y ∈ L2, sizeOfItem y ≤ c) →
      S.length ≤ HISTORY_MAX_ITEMS →
      L2.foldl (fun s x => pushHist s id x.role x.content 0) ⟨[(id, S)], M⟩ =
        ⟨[(id, L2.foldl sessStep S)], L2.foldl (fun m _ => aset id 0 m) M⟩ := by
    intro L2
    induction L2 with
    | nil => intro S M _ _ _; rfl
    | cons x L3 ih =>
      intro S M hS hL2 hlen
      simp only [List.foldl_cons]
      have hx : sizeOfItem x ≤ c := hL2 x (List.mem_cons_self x L3)
      have hsz : sizeOfHist (sessStep S x) ≤ HISTORY_GLOBAL_MAX_BYTES := by
        have heq := sessStep_small S x c hS hx hc hlen
        rw [heq]
        have hsmall : ∀ y ∈ (S ++ [x]).drop ((S ++ [x]).length - HISTORY_MAX_ITEMS),
            sizeOfItem y ≤ c := by
          intro y hy
          have hmem : y ∈ S ++ [x] := List.mem_of_mem_drop hy
          rcases List.mem_append.mp hmem with h | h
          · exact hS y h
          · simp only [List.mem_singleton] at h
            subst h
            exact hx
        have hb := sizeOfHist_le_of_small _ c hsmall
        have hlend : ((S ++ [x]).drop ((S ++ [x]).length - HISTORY_MAX_ITEMS)).length ≤
            HISTORY_MAX_ITEMS := by
          rw [List.length_drop]
          omega
        have h1 : HISTORY_MAX_BYTES ≤ HISTORY_GLOBAL_MAX_BYTES := by
          simp [HISTORY_MAX_BYTES, HISTORY_GLOBAL_MAX_BYTES]
        have h2 := Nat.mul_le_mul_right c hlend
        calc sizeOfHist ((S ++ [x]).drop ((S ++ [x]).length - HISTORY_MAX_ITEMS)) ≤
            ((S ++ [x]).drop ((S ++ [x]).length - HISTORY_MAX_ITEMS)).length * c := hb
          _ ≤ HISTORY_MAX_ITEMS * c := h2
          _ ≤ HISTORY_MAX_BYTES := hc
          _ ≤ HISTORY_GLOBAL_MAX_BYTES := h1
      have hS2 : ∀ y ∈ sessStep S x, sizeOfItem y ≤ c := by
        intro y hy
        rw [sessStep] at hy
        obtain ⟨k, _, hk⟩ := trimBytes_exists_drop (trimCount (S ++ [x]))
        rw [hk] at hy
        have hy2 := List.mem_of_mem_drop hy
        rw [trimCount_eq_drop] at hy2
        have hy3 := List.mem_of_mem_drop hy2
        rcases List.mem_append.mp hy3 with h | h
        · exact hS y h
        · simp only [List.mem_singleton] at h
          subst h
          exact hx
      have hlen2 : (sessStep S x).length ≤ HISTORY_MAX_ITEMS := by
        rw [sessStep]
        obtain ⟨k, _, hk⟩ := trimBytes_exists_drop (trimCount (S ++ [x]))
        rw [hk, List.length_drop]
        have := trimCount_length_le (S ++ [x])
        omega
      rw [pushHist_single_session S M id x.role x.content 0 hsz]
      exact ih (sessStep S x) (aset id 0 M)
        hS2 (fun y hy => hL2 y (List.mem_cons_of_mem x hy)) hlen2
  cases L with
  | nil => rfl
  | cons x L2 =>
    rw [pushHistSeq]
    simp only [List.foldl_cons]
    have hx : sizeOfItem x ≤ c := hL x (List.mem_cons_self x L2)
    have hc50 : HISTORY_MAX_ITEMS = 50 := rfl
    have hfirst : pushHist ⟨[], []⟩ id x.role x.content 0 = ⟨[(id, [x])], [(id, 0)]⟩ := by
      rw [pushHist]
      have h1 : (alookup id ([] : List (String × List HistItem))).getD [] ++
          [(⟨x.role, x.content⟩ : HistItem)] = [x] := by
        simp [alookup]
      rw [h1]
      have h2 : trimCount [x] = [x] := by
        rw [trimCount_eq_drop]
        have hz : ([x] : List HistItem).length - HISTORY_MAX_ITEMS = 0 := by
          simp [HISTORY_MAX_ITEMS]
        rw [hz, List.drop_zero]
      rw [h2]
      have h3 : trimBytes [x] = [x] := by
        apply trimBytes_eq_self
        rw [sizeOfHist_cons]
        simp only [sizeOfHist, List.foldl_nil]
        have : c ≤ HISTORY_MAX_BYTES := by
          have := hc
          rw [hc50] at this
          omega
        omega
      rw [h3]
      rw [pruneGlobalHistories]
      rw [if_neg (by simp [aset])]
      rw [if_pos]
      · simp [aset]
      · constructor
        · simp [aset, HISTORY_GLOBAL_MAX_SESSIONS]
        · have hts : totalSize (aset id [x] []) = sizeOfHist [x] := by
            simp [aset, totalSize]
          rw [hts, sizeOfHist_cons]
          simp only [sizeOfHist, List.foldl_nil]
          have h1 : HISTORY_MAX_BYTES ≤ HISTORY_GLOBAL_MAX_BYTES := by
            simp [HISTORY_MAX_BYTES, HISTORY_GLOBAL_MAX_BYTES]
          have : c ≤ HISTORY_MAX_BYTES := by
            rw [hc50] at hc
            omega
          omega
    rw [hfirst]
    rw [key L2 [x] [(id, 0)] (by intro y hy; simp at hy; subst hy; exact hx)
      (fun y hy => hL y (List.mem_cons_of_mem x hy)) (by simp [hc50])]
    rw [histFor]
    have hlook : alookup id [(id, L2.foldl sessStep [x])] = some (L2.foldl sessStep [x]) := by
      simp [alookup]
    rw [hlook]
    simp only [Option.getD_some]
    rw [foldl_sessStep_drop L2 [x] c (by intro y hy; simp at hy; subst hy; exact hx)
      (fun y hy => hL y (List.mem_cons_of_mem x hy)) hc (by simp [hc50])]
    simp only [List.singleton_append, List.length_cons]

theorem debounceRun_pending (delay : Nat) (tn : Nat) (dn : α) :
    ∀ (rest : List (Nat × α)) (cur : α) (f : Nat),
      gapsOk delay f rest = true →
      debounceRun delay rest cur (some f) =
        [(((rest.getLast?).map (fun e => e.1 + delay)).getD f,
          ((rest.getLast?).map Prod.snd).getD cur)] := by
  intro rest
  induction rest with
  | nil => intro cur f _; rfl
  | cons e rest2 ih =>
    intro cur f hg
    obtain ⟨t, d⟩ := e
    simp only [gapsOk, Bool.and_eq_true, decide_eq_true_eq] at hg
    obtain ⟨hlt, hg2⟩ := hg
    rw [debounceRun]
    rw [if_neg (by omega)]
    rw [ih d (t + delay) hg2]
    cases hr : rest2 with
    | nil => simp
    | cons e2 r3 =>
      simp only [List.getLast?_cons_cons]
      rw [← hr]
      have hne : rest2.getLast? ≠ none := by
        rw [hr]
        cases r3 with
        | nil => simp
        | cons a b => simp [List.getLast?_cons_cons]
      cases hl : rest2.getLast? with
      | none => exact absurd hl hne
      | some el => simp

/-- A burst of mutations, each issued before the previous one's write timer
fires, collapses into exactly one disk write carrying the final in-memory
data, at the last mutation's time plus the delay. -/
theorem debounce_burst (t0 : Nat) (d0 : α) (rest : List (Nat × α))
    (init : α) (tn : Nat) (dn : α)
    (hg : gapsOk writeSoonDelay (t0 + writeSoonDelay) rest = true)
    (hlast : ((t0, d0) :: rest).getLast? = some (tn, dn)) :
    debounceWrites ((t0, d0) :: rest) init = [(tn + writeSoonDelay, dn)] := by
  rw [debounceWrites, debounceRun]
  rw [debounceRun_pending writeSoonDelay tn dn rest d0 (t0 + writeSoonDelay) hg]
  cases hr : rest with
  | nil =>
    rw [hr] at hlast
    simp only [List.getLast?_singleton, Option.some_inj, Prod.mk.injEq] at hlast
    obtain ⟨h1, h2⟩ := hlast
    subst h1
    subst h2
    simp
  | cons e2 r3 =>
    have hlast2 : rest.getLast? = some (tn, dn) := by
      rw [hr] at hlast ⊢
      rw [List.getLast?_cons_cons] at hlast
      exact hlast
    rw [← hr, hlast2]
    simp

theorem gemTryPath_route (oracle : GemOracle) (path : String) (c : GemCfg)
    (rest : List GemCfg) (e : GemErr) (h : oracle path c = .error e)
    (hr : isRouteError e = true) :
    gemTryPath oracle path (c :: rest) = (none, some e, [c]) := by
  rw [gemTryPath, h]
  simp [hr]

theorem gemTryPath_success (oracle : GemOracle) (path : String) (c : GemCfg)
    (rest : List GemCfg) (v : Nat) (h : oracle path c = .ok v) :
    gemTryPath oracle path (c :: rest) = (some v, none, [c]) := by
  rw [gemTryPath, h]

theorem gemTryPath_nonroute (oracle : GemOracle) (path : String) (c : GemCfg)
    (rest : List GemCfg) (e : GemErr) (h : oracle path c = .error e)
    (hr : isRouteError e = false) :
    (gemTryPath oracle path (c :: rest)).2.2 =
      c :: (gemTryPath oracle path rest).2.2 := by
  rw [gemTryPath, h]
  simp only [hr]
  cases hg : gemTryPath oracle path rest with
  | mk res p2 =>
    obtain ⟨eo, tried⟩ := p2
    cases eo with
    | none => simp
    | some e2 => simp

/-- When no attempt at either version succeeds, the fallback helper
propagates the last error seen (the one recorded at the older `/v1` path). -/
theorem geminiFallback_last_error (p : Provider) (base : GemCfg) (oracle : GemOracle)
    (e1 : Option GemErr) (t1 : List GemCfg) (e2 : GemErr) (t2 : List GemCfg)
    (h1 : gemTryPath oracle "/v1beta" (mkConfigs p base) = (none, e1, t1))
    (h2 : gemTryPath oracle "/v1" (mkConfigs p base) = (none, some e2, t2)) :
    (geminiRequestWithFallback p base oracle).1 = .error e2 := by
  rw [geminiRequestWithFallback]
  rw [h1, h2]

/-- When `/v1beta` yields no success, the same configuration list is retried
at `/v1` and the trace is the `/v1beta` attempts followed by the `/v1`
attempts. -/
theorem geminiFallback_trace (p : Provider) (base : GemCfg) (oracle : GemOracle)
    (e1 : Option GemErr) (t1 : List GemCfg)
    (h1 : gemTryPath oracle "/v1beta" (mkConfigs p base) = (none, e1, t1)) :
    (geminiRequestWithFallback p base oracle).2 =
      t1.map (fun c => ("/v1beta", c)) ++
        (gemTryPath oracle "/v1" (mkConfigs p base)).2.2.map (fun c => ("/v1", c)) := by
  rw [geminiRequestWithFallback]
  rw [h1]
  cases h2 : gemTryPath oracle "/v1" (mkConfigs p base) with
  | mk res2 pr =>
    obtain ⟨e2, t2⟩ := pr
    cases res2 with
    | none => rfl
    | some v => rfl

theorem olook_setIfAbsent_self (mc : List (String × List (String × Compat)))
    (name ml : String) (v : Compat) (h : olook mc name ml = none) :
    olook (setOverrideIfAbsent name ml v mc) name ml = some v := by
  cases hd : alookup name mc with
  | none =>
    have hdict : (alookup name mc).getD [] = [] := by rw [hd]; rfl
    rw [setOverrideIfAbsent, hdict]
    have hml : alookup ml ([] : List (String × Compat)) = none := rfl
    rw [hml]
    rw [olook]
    rw [alookup_aset_self]
    exact alookup_aset_self ml v []
  | some dict =>
    have hml : alookup ml dict = none := by
      rw [olook, hd] at h
      exact h
    have hdict : (alookup name mc).getD [] = dict := by rw [hd]; rfl
    rw [setOverrideIfAbsent, hdict, hml]
    rw [olook]
    rw [alookup_aset_self]
    exact alookup_aset_self ml v dict

/-- C1: a manual compat override always wins: `resolveCompat` returns the
stored override immediately and without state change, no write performed by
the probe path of `resolveCompat` ever replaces an existing override entry,
and a catalog refresh never touches the override table at all. -/
theorem c1_override_wins :
    (∀ (st : CompatState) (name model : String) (p : Provider)
        (probe : Except Unit ProbeResult) (v : Compat),
        lookupOverride st name ⟨model.data.map Char.toLower⟩ = some v →
        resolveCompat st name model p probe = ⟨v, st, p, false, false⟩) ∧
    (∀ (st : CompatState) (name model : String) (p : Provider)
        (probe : Except Unit ProbeResult) (n' m' : String) (v : Compat),
        lookupOverride st n' m' = some v →
        lookupOverride (resolveCompat st name model p probe).state n' m' = some v) ∧
    (∀ (st : CompatState) (probes : List (Except Unit ProbeResult)),
        (refreshModelCatalog st probes).modelCompat = st.modelCompat) := by
  refine ⟨?_, ?_, ?_⟩
  · intro st name model p probe v hov
    rw [resolveCompat]
    rw [hov]
  · intro st name model p probe n' m' v h
    exact resolveCompat_preserves_overrides st name model p probe n' m' v h
  · intro st probes
    rfl

/-- Witness for C1 at a concrete store holding the override
`acme/m1 -> claude`. -/
theorem c1_override_wins_witness :
    resolveCompat ⟨[("acme", [("m1", Compat.claude)])], []⟩ "acme" "M1"
        ⟨"k", "https://x.example", none, none⟩ (.error ()) =
      ⟨Compat.claude, ⟨[("acme", [("m1", Compat.claude)])], []⟩,
        ⟨"k", "https://x.example", none, none⟩, false, false⟩ :=
  c1_override_wins.1 ⟨[("acme", [("m1", Compat.claude)])], []⟩ "acme" "M1"
    ⟨"k", "https://x.example", none, none⟩ (.error ()) Compat.claude (by decide)

/-- C3 counterexample: an error carrying HTTP status 400 but also a
connection-reset code is classified retryable and is in fact retried (three
attempts are made), contradicting the claim that a status-400 error always
fails immediately on the first attempt. -/
theorem c3_counterexample :
    shouldRetry ⟨some ⟨400⟩, some "ECONNRESET", true⟩ = true ∧
    (axiosWithRetry (fun _ => .error ⟨some ⟨400⟩, some "ECONNRESET", true⟩) 2).2 = 3 := by
  constructor
  · decide
  · have he : shouldRetry ⟨some ⟨400⟩, some "ECONNRESET", true⟩ = true := by decide
    have hc0 : ¬ ((0 : Nat) ≥ 2 ∨ ¬ shouldRetry ⟨some ⟨400⟩, some "ECONNRESET", true⟩) := by
      rw [not_or]
      exact ⟨by omega, by simp [he]⟩
    have hc1 : ¬ ((1 : Nat) ≥ 2 ∨ ¬ shouldRetry ⟨some ⟨400⟩, some "ECONNRESET", true⟩) := by
      rw [not_or]
      exact ⟨by omega, by simp [he]⟩
    rw [axiosWithRetry, retryLoop]
    dsimp only
    rw [dif_neg hc0]
    rw [retryLoop]
    dsimp only
    rw [dif_neg hc1]
    rw [retryLoop]
    dsimp only
    rw [dif_pos (Or.inl (by omega))]

/-- C3 (amended): at most `tries + 1` attempts (3 with the default budget 2);
an attempt is followed by another one only if it failed with a
`shouldRetry`-positive error within budget; a first-attempt error the
classifier rejects fails immediately; a retryable first error is retried;
and an error whose response status is 400/401/404 and which carries no
connection-level error code is never classified retryable. -/
theorem c3_amended :
    (∀ oracle : Nat → Outcome, (axiosWithRetry oracle 2).2 ≤ 3) ∧
    (∀ (oracle : Nat → Outcome) (tries i : Nat),
        i + 1 < (retryLoop oracle tries 0).2 →
        ∃ e, oracle i = .error e ∧ shouldRetry e = true ∧ i < tries) ∧
    (∀ (oracle : Nat → Outcome) (tries : Nat) (e : AxiosErr),
        oracle 0 = .error e → shouldRetry e = false →
        axiosWithRetry oracle tries = (.error e, 1)) ∧
    (∀ (oracle : Nat → Outcome) (tries : Nat) (e : AxiosErr),
        oracle 0 = .error e → shouldRetry e = true → 0 < tries →
        2 ≤ (axiosWithRetry oracle tries).2) ∧
    (∀ (e : AxiosErr) (r : RespInfo), e.response = some r →
        (r.status = 400 ∨ r.status = 401 ∨ r.status = 404) → e.code = none →
        shouldRetry e = false) := by
  refine ⟨?_, ?_, ?_, ?_, ?_⟩
  · intro oracle
    exact retryLoop_attempts_le oracle 2 0 (by omega)
  · intro oracle tries i hlt
    exact retryLoop_mid_retryable oracle tries 0 i (by omega) hlt
  · intro oracle tries e h0 hnr
    exact axiosWithRetry_no_retry oracle tries e h0 hnr
  · intro oracle tries e h0 hr ht
    exact axiosWithRetry_retries oracle tries e h0 hr ht
  · intro e r hresp hstat hcode
    obtain ⟨eresp, ecode, eax⟩ := e
    simp only at hresp hcode
    subst hresp
    subst hcode
    rw [shouldRetry]
    rcases hstat with h | h | h <;>
      (obtain ⟨rs⟩ := r
       simp only at h
       subst h
       simp)

/-- Witness for C3 (amended) at a concrete oracle whose first attempt fails
with a plain 404. -/
theorem c3_amended_witness :
    (axiosWithRetry (fun _ => .error ⟨some ⟨404⟩, none, true⟩) 2).2 ≤ 3 ∧
    axiosWithRetry (fun _ => .error ⟨some ⟨404⟩, none, true⟩) 2 =
      (.error ⟨some ⟨404⟩, none, true⟩, 1) ∧
    shouldRetry ⟨some ⟨404⟩, none, true⟩ = false :=
  ⟨c3_amended.1 (fun _ => .error ⟨some ⟨404⟩, none, true⟩),
   c3_amended.2.2.1 (fun _ => .error ⟨some ⟨404⟩, none, true⟩) 2
     ⟨some ⟨404⟩, none, true⟩ rfl (by decide),
   c3_amended.2.2.2.2 ⟨some ⟨404⟩, none, true⟩ ⟨404⟩ rfl (Or.inr (Or.inr rfl)) rfl⟩

/-- C4 counterexample: for text exceeding the effective limit, the plain
concatenation of the returned segments does not reconstruct the original
text (the newline consumed at the split boundary is lost). -/
theorem c4_counterexample :
    splitMessage "ab\ncd" 4094 = ["ab", "cd"] ∧ "ab" ++ "cd" ≠ "ab\ncd" := by
  constructor
  · decide
  · decide

/-- C5 counterexample: with no override and no catalog entry, `resolveCompat`
does not return the name-heuristic value to the caller: it awaits the live
probe and returns the probe-derived family, which here differs from the
heuristic. -/
theorem c5_counterexample :
    (resolveCompat ⟨[], []⟩ "acme" "mystery-model" ⟨"k", "https://api.acme.ai", none, none⟩
        (.ok ⟨some Compat.claude, [("mystery-model", Compat.claude)]⟩)).result =
      Compat.claude ∧
    detectCompat "acme" "mystery-model" "https://api.acme.ai" = Compat.openai := by
  constructor
  · decide
  · decide

/-- C5 (amended): with no override and no catalog entry, `resolveCompat`
computes the name heuristic, schedules a background catalog refresh, and
awaits the live probe; when the probe fails the heuristic value is returned,
persisted as the cached entry, and any later call returns it immediately
without probing. -/
theorem c5_amended (st : CompatState) (name model : String) (p : Provider)
    (hov : lookupOverride st name ⟨model.data.map Char.toLower⟩ = none)
    (hcat : getCompatFromCatalog st model = none) :
    (resolveCompat st name model p (.error ())).result =
      detectCompat name model p.baseUrl ∧
    (resolveCompat st name model p (.error ())).refreshScheduled = true ∧
    (resolveCompat st name model p (.error ())).probed = true ∧
    lookupOverride (resolveCompat st name model p (.error ())).state name
      ⟨model.data.map Char.toLower⟩ =
      some (resolveCompat st name model p (.error ())).result ∧
    (∀ probe2, resolveCompat (resolveCompat st name model p (.error ())).state
        name model p probe2 =
      ⟨(resolveCompat st name model p (.error ())).result,
        (resolveCompat st name model p (.error ())).state, p, false, false⟩) := by
  have hout : resolveCompat st name model p (.error ()) =
      ⟨detectCompat name model p.baseUrl,
        ⟨setOverrideIfAbsent name ⟨model.data.map Char.toLower⟩
          (detectCompat name model p.baseUrl) st.modelCompat, st.catalogMap⟩,
        p, true, true⟩ := by
    rw [resolveCompat]
    rw [hov]
    dsimp only
    rw [hcat]
    rfl
  have hcached : lookupOverride (resolveCompat st name model p (.error ())).state name
      ⟨model.data.map Char.toLower⟩ = some (detectCompat name model p.baseUrl) := by
    rw [hout]
    rw [lookupOverride_olook]
    apply olook_setIfAbsent_self
    rw [lookupOverride_olook] at hov
    exact hov
  refine ⟨by rw [hout], by rw [hout], by rw [hout], ?_, ?_⟩
  · rw [hcached, hout]
  · intro probe2
    rw [resolveCompat]
    rw [hcached, hout]

/-- Witness for C5 (amended) at an empty store and a failing probe. -/
theorem c5_amended_witness :
    (resolveCompat ⟨[], []⟩ "acme" "Mystery-Model"
        ⟨"k", "https://api.acme.ai", none, none⟩ (.error ())).result =
      detectCompat "acme" "Mystery-Model" "https://api.acme.ai" ∧
    lookupOverride (resolveCompat ⟨[], []⟩ "acme" "Mystery-Model"
        ⟨"k", "https://api.acme.ai", none, none⟩ (.error ())).state "acme"
        ⟨"Mystery-Model".data.map Char.toLower⟩ =
      some (resolveCompat ⟨[], []⟩ "acme" "Mystery-Model"
        ⟨"k", "https://api.acme.ai", none, none⟩ (.error ())).result := by
  have h := c5_amended ⟨[], []⟩ "acme" "Mystery-Model"
    ⟨"k", "https://api.acme.ai", none, none⟩ (by decide) (by decide)
  exact ⟨h.1, h.2.2.2.1⟩

theorem trimBytes_singleton (x : HistItem) : trimBytes [x] = [x] := by
  rw [trimBytes]
  rw [dif_neg]
  intro hand
  simp at hand

theorem aset_nil {α : Type} (k : String) (v : α) : aset k v ([] : List (String × α)) = [(k, v)] := rfl

theorem sizeOfHist_single (x : HistItem) : sizeOfHist [x] = sizeOfItem x := by
  rw [sizeOfHist_cons]
  have h : sizeOfHist ([] : List HistItem) = 0 := rfl
  rw [h, Nat.add_zero]

theorem trimCount_singleton (x : HistItem) : trimCount [x] = [x] := by
  rw [trimCount_eq_drop]
  have hz : ([x] : List HistItem).length - HISTORY_MAX_ITEMS = 0 := by
    simp [HISTORY_MAX_ITEMS]
  rw [hz, List.drop_zero]

theorem histFor_single (k : String) (h : List HistItem) (m : List (String × Nat)) :
    histFor ⟨[(k, h)], m⟩ k = h := by
  simp [histFor, alookup]

theorem pushHist_empty_keep (id role content : String) (now : Nat)
    (hle : sizeOfItem ⟨role, content⟩ ≤ HISTORY_GLOBAL_MAX_BYTES) :
    pushHist ⟨[], []⟩ id role content now =
      ⟨[(id, [⟨role, content⟩])], [(id, now)]⟩ := by
  rw [pushHist]
  have h1 : (alookup id ([] : List (String × List HistItem))).getD [] ++
      [(⟨role, content⟩ : HistItem)] = [⟨role, content⟩] := rfl
  rw [h1, trimCount_singleton, trimBytes_singleton, aset_nil, aset_nil,
    pruneGlobalHistories]
  have hids : List.map Prod.fst
      (({histories := [(id, [⟨role, content⟩])], histMeta := [(id, now)]} : HistState)).histories
      = [id] := rfl
  rw [hids]
  rw [if_neg (by simp)]
  have hts : totalSize
      (({histories := [(id, [⟨role, content⟩])], histMeta := [(id, now)]} : HistState)).histories
      = sizeOfItem ⟨role, content⟩ := by
    show totalSize [(id, [⟨role, content⟩])] = sizeOfItem ⟨role, content⟩
    rw [totalSize, List.map_cons, List.map_nil, List.sum_cons, List.sum_nil]
    show sizeOfHist [(⟨role, content⟩ : HistItem)] + 0 = sizeOfItem ⟨role, content⟩
    rw [Nat.add_zero, sizeOfHist_single]
  rw [hts]
  rw [if_pos]
  constructor
  · rw [List.length_singleton]
    decide
  · exact hle

theorem pushHist_empty_evict (id role content : String) (now : Nat)
    (hgt : HISTORY_GLOBAL_MAX_BYTES < sizeOfItem ⟨role, content⟩) :
    pushHist ⟨[], []⟩ id role content now = ⟨[], []⟩ := by
  rw [pushHist]
  have h1 : (alookup id ([] : List (String × List HistItem))).getD [] ++
      [(⟨role, content⟩ : HistItem)] = [⟨role, content⟩] := rfl
  rw [h1, trimCount_singleton, trimBytes_singleton, aset_nil, aset_nil,
    pruneGlobalHistories]
  have hids : List.map Prod.fst
      (({histories := [(id, [⟨role, content⟩])], histMeta := [(id, now)]} : HistState)).histories
      = [id] := rfl
  rw [hids]
  rw [if_neg (by simp)]
  have hts : totalSize
      (({histories := [(id, [⟨role, content⟩])], histMeta := [(id, now)]} : HistState)).histories
      = sizeOfItem ⟨role, content⟩ := by
    show totalSize [(id, [⟨role, content⟩])] = sizeOfItem ⟨role, content⟩
    rw [totalSize, List.map_cons, List.map_nil, List.sum_cons, List.sum_nil]
    show sizeOfHist [(⟨role, content⟩ : HistItem)] + 0 = sizeOfItem ⟨role, content⟩
    rw [Nat.add_zero, sizeOfHist_single]
  rw [hts]
  rw [if_neg]
  · have hsort : sortByTime
        (({histories := [(id, [⟨role, content⟩])], histMeta := [(id, now)]} : HistState)).histMeta
        [id] = [id] := by
      show sortByTime [(id, now)] [id] = [id]
      rfl
    rw [hsort]
    rw [evictLoop]
    rw [if_pos (Or.inr hgt)]
    have hlook : (alookup id
        (({histories := [(id, [⟨role, content⟩])], histMeta := [(id, now)]} : HistState)).histories).getD []
        = [⟨role, content⟩] := by
      show (alookup id [(id, [(⟨role, content⟩ : HistItem)])]).getD [] = _
      rw [alookup, if_pos rfl]
      rfl
    have hdel1 : adel id
        (({histories := [(id, [⟨role, content⟩])], histMeta := [(id, now)]} : HistState)).histories
        = [] := by
      show adel id [(id, [(⟨role, content⟩ : HistItem)])] = []
      rw [adel, if_pos rfl, adel]
    have hdel2 : adel id
        (({histories := [(id, [⟨role, content⟩])], histMeta := [(id, now)]} : HistState)).histMeta
        = [] := by
      show adel id [(id, now)] = []
      rw [adel, if_pos rfl, adel]
    rw [hlook, hdel1, hdel2]
    rw [evictLoop]
  · intro hand
    exact absurd hand.2 (Nat.not_le_of_lt hgt)

/-- C2 counterexample: a single append whose one turn exceeds 64 KiB leaves
the session above the per-session byte cap (the byte-eviction loop keeps at
least one turn), refuting the unconditional 64 KiB bound. -/
theorem c2_counterexample : HISTORY_MAX_BYTES < sizeOfHist (histFor
      (pushHist ⟨[], []⟩ "chat:42" "u" (repStr 65600) 1) "chat:42") := by
  have hitem : sizeOfItem ⟨"u", repStr 65600⟩ = 65602 := by
    show byteLen ("u" ++ ":" ++ repStr 65600) = 65602
    rw [byteLen_append, byteLen_append, repStr_byteLen]
    have h1 : byteLen "u" = 1 := by decide
    have h2 : byteLen ":" = 1 := by decide
    rw [h1, h2]
  rw [pushHist_empty_keep "chat:42" "u" (repStr 65600) 1 (by rw [hitem]; decide)]
  rw [histFor_single, sizeOfHist_single, hitem]
  decide

/-- C2 (amended): after every append the session holds at most 50 turns and
is within 64 KiB unless a single (possibly oversized) turn remains; the
global store never exceeds 200 sessions or 2 MiB; global eviction removes a
prefix of the sessions ordered by oldest last-write time first; and a burst
of small appends into a fresh store leaves exactly the most recent 50 turns
in original order. -/
theorem c2_amended :
    (∀ (st : HistState) (id role content : String) (now : Nat),
        (histFor (pushHist st id role content now) id).length ≤ HISTORY_MAX_ITEMS) ∧
    (∀ (st : HistState) (id role content : String) (now : Nat),
        sizeOfHist (histFor (pushHist st id role content now) id) ≤ HISTORY_MAX_BYTES ∨
          (histFor (pushHist st id role content now) id).length ≤ 1) ∧
    (∀ (st : HistState) (id role content : String) (now : Nat),
        (st.histories.map Prod.fst).Nodup →
        (pushHist st id role content now).histories.length ≤ HISTORY_GLOBAL_MAX_SESSIONS ∧
          totalSize (pushHist st id role content now).histories ≤
            HISTORY_GLOBAL_MAX_BYTES) ∧
    (∀ st : HistState, ∃ k, pruneGlobalHistories st =
        applyDel ((sortByTime st.histMeta (st.histories.map Prod.fst)).take k) st) ∧
    (∀ (meta : List (String × Nat)) (l : List String),
        (sortByTime meta l).Sorted (fun a b => metaTime meta a ≤ metaTime meta b) ∧
          (sortByTime meta l).Perm l) ∧
    (∀ (id : String) (L : List HistItem) (c : Nat),
        HISTORY_MAX_ITEMS * c ≤ HISTORY_MAX_BYTES → (∀ y ∈ L, sizeOfItem y ≤ c) →
        histFor (pushHistSeq ⟨[], []⟩ id L) id =
          L.drop (L.length - HISTORY_MAX_ITEMS)) := by
  refine ⟨?_, ?_, ?_, ?_, ?_, ?_⟩
  · intro st id role content now
    exact pushHist_count_le st id role content now
  · intro st id role content now
    exact pushHist_bytes_or_single st id role content now
  · intro st id role content now hnd
    exact pushHist_global_bounds st id role content now hnd
  · intro st
    exact pruneGlobal_prefix_del st
  · intro meta l
    exact ⟨sortByTime_sorted meta l, sortByTime_perm meta l⟩
  · intro id L c hc hL
    exact pushHistSeq_scenario id L c hc hL

/-- Witness for C2 (amended) at concrete small inputs. -/
theorem c2_amended_witness :
    (histFor (pushHist ⟨[], []⟩ "chat:42" "user" "hi" 1) "chat:42").length ≤
      HISTORY_MAX_ITEMS ∧
    ((pushHist ⟨[], []⟩ "chat:42" "user" "hi" 1).histories.length ≤
        HISTORY_GLOBAL_MAX_SESSIONS ∧
      totalSize (pushHist ⟨[], []⟩ "chat:42" "user" "hi" 1).histories ≤
        HISTORY_GLOBAL_MAX_BYTES) ∧
    histFor (pushHistSeq ⟨[], []⟩ "chat:42"
        [⟨"user", "aa"⟩, ⟨"assistant", "bb"⟩] ) "chat:42" =
      [⟨"user", "aa"⟩, ⟨"assistant", "bb"⟩].drop
        ([⟨"user", "aa"⟩, (⟨"assistant", "bb"⟩ : HistItem)].length - HISTORY_MAX_ITEMS) :=
  ⟨c2_amended.1 ⟨[], []⟩ "chat:42" "user" "hi" 1,
   c2_amended.2.2.1 ⟨[], []⟩ "chat:42" "user" "hi" 1 (by decide),
   c2_amended.2.2.2.2.2 "chat:42" [⟨"user", "aa"⟩, ⟨"assistant", "bb"⟩] 1285
     (by decide) (by decide)⟩

/-- C10 counterexample: an append whose single turn exceeds the 2 MiB global
byte cap is evicted by the global pruning pass together with its whole
session, so the append leaves the session empty — the appended turn does not
survive. -/
theorem c10_counterexample : histFor (pushHist ⟨[], []⟩ "s" "u" (repStr 2100000) 1) "s" = [] := by
  have hitem : sizeOfItem ⟨"u", repStr 2100000⟩ = 2100002 := by
    show byteLen ("u" ++ ":" ++ repStr 2100000) = 2100002
    rw [byteLen_append, byteLen_append, repStr_byteLen]
    have h1 : byteLen "u" = 1 := by decide
    have h2 : byteLen ":" = 1 := by decide
    rw [h1, h2]
  rw [pushHist_empty_evict "s" "u" (repStr 2100000) 1 (by rw [hitem]; decide)]
  rfl

/-- C10 (amended): the per-session byte eviction only drops oldest turns and
keeps at least one; and an append whose turn fits the 2 MiB global budget,
stamped strictly fresher than every existing session, leaves the session
non-empty with the appended turn as its newest entry.  (A turn above the
global budget can still be evicted with its whole session, per the
counterexample.) -/
theorem c10_amended :
    (∀ h : List HistItem, (∃ k, trimBytes h = h.drop k) ∧
        (h ≠ [] → trimBytes h ≠ [])) ∧
    (∀ (st : HistState) (id role content : String) (now : Nat),
        (st.histories.map Prod.fst).Nodup →
        (∀ kv ∈ st.histMeta, kv.2 < now) → 0 < now →
        sizeOfItem ⟨role, content⟩ ≤ HISTORY_GLOBAL_MAX_BYTES →
        histFor (pushHist st id role content now) id ≠ [] ∧
          (histFor (pushHist st id role content now) id).getLast? =
            some ⟨role, content⟩) := by
  constructor
  · intro h
    constructor
    · obtain ⟨k, _, hk⟩ := trimBytes_exists_drop h
      exact ⟨k, hk⟩
    · exact trimBytes_ne_nil h
  · intro st id role content now hnd hmeta hpos hsz
    exact pushHist_newest st id role content now hnd hmeta hpos hsz

/-- Witness for C10 (amended) at a fresh store and a small turn. -/
theorem c10_amended_witness :
    histFor (pushHist ⟨[], []⟩ "s" "user" "hello" 5) "s" ≠ [] ∧
      (histFor (pushHist ⟨[], []⟩ "s" "user" "hello" 5) "s").getLast? =
        some ⟨"user", "hello"⟩ :=
  c10_amended.2 ⟨[], []⟩ "s" "user" "hello" 5 (by decide)
    (by intro kv hkv; simp at hkv) (by decide) (by decide)

/-! ### Remaining claim theorems -/

theorem applyWrap_false (s : String) : applyWrap s false = s := rfl

/-- C6 counterexample: with three distinct auth configs and an oracle that
answers every attempt with a 404 route error, only the first config is tried
at each version (the route error breaks the per-version config loop), so not
every auth attempt is tried at each version. -/
theorem c6_counterexample :
    (mkConfigs ⟨"k", "https://gem.example", none, none⟩ ⟨[], []⟩).length = 3 ∧
    (geminiRequestWithFallback ⟨"k", "https://gem.example", none, none⟩ ⟨[], []⟩
        (fun _ _ => .error ⟨some 404, "not found"⟩)).2 =
      [("/v1beta", ⟨[], [("key", "k")]⟩), ("/v1", ⟨[], [("key", "k")]⟩)] := by
  decide

/-- C6 (amended): a route-class error (404/405, or a matching 400) at one
config aborts that version's config loop immediately, a non-route error
moves on to the next config, every `/v1beta` failure is retried with the
same config list at `/v1` (the trace is the `/v1beta` attempts followed by
the `/v1` attempts), and when both versions fail the last error (the `/v1`
one) is propagated. -/
theorem c6_amended :
    (∀ (oracle : GemOracle) (path : String) (c : GemCfg) (rest : List GemCfg) (e : GemErr),
        oracle path c = .error e → isRouteError e = true →
        gemTryPath oracle path (c :: rest) = (none, some e, [c])) ∧
    (∀ (oracle : GemOracle) (path : String) (c : GemCfg) (rest : List GemCfg) (e : GemErr),
        oracle path c = .error e → isRouteError e = false →
        (gemTryPath oracle path (c :: rest)).2.2 = c :: (gemTryPath oracle path rest).2.2) ∧
    (∀ (p : Provider) (base : GemCfg) (oracle : GemOracle) (e1 : Option GemErr)
        (t1 : List GemCfg),
        gemTryPath oracle "/v1beta" (mkConfigs p base) = (none, e1, t1) →
        (geminiRequestWithFallback p base oracle).2 =
          t1.map (fun c => ("/v1beta", c)) ++
            (gemTryPath oracle "/v1" (mkConfigs p base)).2.2.map (fun c => ("/v1", c))) ∧
    (∀ (p : Provider) (base : GemCfg) (oracle : GemOracle) (e1 : Option GemErr)
        (t1 : List GemCfg) (e2 : GemErr) (t2 : List GemCfg),
        gemTryPath oracle "/v1beta" (mkConfigs p base) = (none, e1, t1) →
        gemTryPath oracle "/v1" (mkConfigs p base) = (none, some e2, t2) →
        (geminiRequestWithFallback p base oracle).1 = .error e2) :=
  ⟨fun oracle path c rest e h hr => gemTryPath_route oracle path c rest e h hr,
   fun oracle path c rest e h hr => gemTryPath_nonroute oracle path c rest e h hr,
   fun p base oracle e1 t1 h1 => geminiFallback_trace p base oracle e1 t1 h1,
   fun p base oracle e1 t1 e2 t2 h1 h2 => geminiFallback_last_error p base oracle e1 t1 e2 t2 h1 h2⟩

theorem c6_amended_witness :
    gemTryPath (fun _ _ => (Except.error ⟨some 404, ""⟩ : Except GemErr Nat)) "/v1beta"
        [⟨[], []⟩] = (none, some ⟨some 404, ""⟩, [⟨[], []⟩]) :=
  c6_amended.1 (fun _ _ => .error ⟨some 404, ""⟩) "/v1beta" ⟨[], []⟩ [] ⟨some 404, ""⟩
    rfl (by decide)

/-- C7 counterexample: for a base URL matching no vendor domain and a
provider with no explicit AuthConfig (the case the claim says yields the
three-attempt bearer, x-api-key, key list), `buildAuthAttempts` emits a
single bearer attempt, never a three-element list. -/
theorem c7_counterexample :
    buildAuthAttempts ⟨"k", "https://api.example.com", none, none⟩ [] =
      [⟨[("Authorization", "Bearer k")], []⟩] ∧
    (buildAuthAttempts ⟨"k", "https://api.example.com", none, none⟩ []).length ≠ 3 := by
  decide

/-- C7 (amended): `buildAuthAttempts` is a pure function that always emits
exactly one attempt: built from the explicit AuthConfig when present,
otherwise for the method detected from the base URL by case-insensitive
substring matching (Google Gemini/Vertex domains → query key; else
Anthropic → x-api-key header; else Baidu → query key; else bearer). -/
theorem c7_amended :
    (∀ (p : Provider) (extra : List (String × String)),
        (buildAuthAttempts p extra).length = 1) ∧
    (∀ (p : Provider) (extra : List (String × String)) (cfg : AuthConfig),
        p.authConfig = some cfg →
        buildAuthAttempts p extra =
          [⟨mergeHeaders (buildAuthHeaders cfg) extra, buildAuthParams cfg⟩]) ∧
    (∀ (p : Provider) (extra : List (String × String)),
        p.authConfig = none → detectAuthMethod p.baseUrl = .bearerToken →
        buildAuthAttempts p extra =
          [⟨mergeHeaders [("Authorization", "Bearer " ++ p.apiKey)] extra, []⟩]) ∧
    (∀ (p : Provider) (extra : List (String × String)),
        p.authConfig = none → detectAuthMethod p.baseUrl = .apiKeyHeader →
        buildAuthAttempts p extra =
          [⟨mergeHeaders [("x-api-key", p.apiKey)] extra, []⟩]) ∧
    (∀ (p : Provider) (extra : List (String × String)),
        p.authConfig = none → detectAuthMethod p.baseUrl = .queryParam →
        buildAuthAttempts p extra = [⟨mergeHeaders [] extra, [("key", p.apiKey)]⟩]) ∧
    (∀ u : String,
        (strContainsLower u "generativelanguage.googleapis.com" ||
          strContainsLower u "aiplatform.googleapis.com") = true →
        detectAuthMethod u = .queryParam) ∧
    (∀ u : String,
        (strContainsLower u "generativelanguage.googleapis.com" ||
          strContainsLower u "aiplatform.googleapis.com") = false →
        strContainsLower u "anthropic.com" = true →
        detectAuthMethod u = .apiKeyHeader) ∧
    (∀ u : String,
        (strContainsLower u "generativelanguage.googleapis.com" ||
          strContainsLower u "aiplatform.googleapis.com") = false →
        strContainsLower u "anthropic.com" = false →
        strContainsLower u "aip.baidubce.com" = true →
        detectAuthMethod u = .queryParam) ∧
    (∀ u : String,
        (strContainsLower u "generativelanguage.googleapis.com" ||
          strContainsLower u "aiplatform.googleapis.com") = false →
        strContainsLower u "anthropic.com" = false →
        strContainsLower u "aip.baidubce.com" = false →
        detectAuthMethod u = .bearerToken) := by
  refine ⟨?_, ?_, ?_, ?_, ?_, ?_, ?_, ?_, ?_⟩
  · intro p extra
    cases hcfg : p.authConfig <;> simp [buildAuthAttempts, hcfg]
  · intro p extra cfg h
    simp [buildAuthAttempts, h]
  · intro p extra h hdet
    simp [buildAuthAttempts, h, hdet, buildAuthHeaders, buildAuthParams]
  · intro p extra h hdet
    simp [buildAuthAttempts, h, hdet, buildAuthHeaders, buildAuthParams]
  · intro p extra h hdet
    simp [buildAuthAttempts, h, hdet, buildAuthHeaders, buildAuthParams]
  · intro u h
    simp [detectAuthMethod, h]
  · intro u h1 h2
    simp [detectAuthMethod, h1, h2]
  · intro u h1 h2 h3
    simp [detectAuthMethod, h1, h2, h3]
  · intro u h1 h2 h3
    simp [detectAuthMethod, h1, h2, h3]

theorem c7_amended_witness :
    buildAuthAttempts ⟨"k", "https://api.anthropic.com/v1", none, none⟩ [] =
      [⟨mergeHeaders [("x-api-key", "k")] [], []⟩] :=
  c7_amended.2.2.2.1 ⟨"k", "https://api.anthropic.com/v1", none, none⟩ [] rfl (by decide)

/-- C8: a burst of mutations, each issued within the 300 ms debounce window
of the previous one, collapses into exactly one disk write, performed one
delay after the last mutation and carrying that mutation's (final) data. -/
theorem c8_single_write (t0 d0 : Nat) (rest : List (Nat × Nat)) (init tn dn : Nat)
    (hg : gapsOk writeSoonDelay (t0 + writeSoonDelay) rest = true)
    (hlast : ((t0, d0) :: rest).getLast? = some (tn, dn)) :
    debounceWrites ((t0, d0) :: rest) init = [(tn + writeSoonDelay, dn)] :=
  debounce_burst t0 d0 rest init tn dn hg hlast

theorem c8_single_write_witness :
    debounceWrites [(0, 1), (100, 2), (250, 3)] 0 = [(250 + writeSoonDelay, 3)] :=
  c8_single_write 0 1 [(100, 2), (250, 3)] 0 250 3 (by decide) (by decide)

/-- C9 counterexample: with an in-flight per-model key `acme::m1` alongside
the provider-level key `acme`, updating the provider's apiKey leaves the
per-model key in place, and removing the single provider leaves both keys
in place, refuting the claim that every in-flight resolution tied to the
provider is removed. -/
theorem c9_counterexample :
    (cmdConfigUpdate
        ⟨[("acme", ⟨"k", "https://x.example", none, none⟩)], [], [], ⟨"", "", "", ""⟩,
          ["acme::m1", "acme"]⟩ "acme" "apikey" "k2").1.resolvingKeys = ["acme::m1"] ∧
    (cmdConfigRemove
        ⟨[("acme", ⟨"k", "https://x.example", none, none⟩)], [], [], ⟨"", "", "", ""⟩,
          ["acme::m1", "acme"]⟩ "acme").1.resolvingKeys = ["acme::m1", "acme"] := by
  decide

/-- C9 (amended): add and update (apiKey or baseUrl) drop the provider's
override table and its provider-level in-flight key and trigger a catalog
refresh; removing one provider drops the provider and its override table
and triggers a refresh but leaves the in-flight keys untouched; only
`remove all` clears the whole in-flight map. -/
theorem c9_amended :
    (∀ (st : ConfigState) (name key baseUrl : String),
        alookup name (cmdConfigAdd st name key baseUrl).1.modelCompat = none ∧
        name ∉ (cmdConfigAdd st name key baseUrl).1.resolvingKeys ∧
        (cmdConfigAdd st name key baseUrl).2 = true) ∧
    (∀ (st : ConfigState) (name value : String) (p : Provider),
        alookup name st.providers = some p →
        (alookup name (cmdConfigUpdate st name "apikey" value).1.modelCompat = none ∧
         name ∉ (cmdConfigUpdate st name "apikey" value).1.resolvingKeys ∧
         (cmdConfigUpdate st name "apikey" value).2 = true) ∧
        (alookup name (cmdConfigUpdate st name "baseurl" value).1.modelCompat = none ∧
         name ∉ (cmdConfigUpdate st name "baseurl" value).1.resolvingKeys ∧
         (cmdConfigUpdate st name "baseurl" value).2 = true)) ∧
    (∀ (st : ConfigState) (target : String) (p : Provider),
        alookup target st.providers = some p →
        alookup target (cmdConfigRemove st target).1.providers = none ∧
        alookup target (cmdConfigRemove st target).1.modelCompat = none ∧
        (cmdConfigRemove st target).2 = true) ∧
    (∀ (st : ConfigState) (target : String),
        target ≠ "all" →
        (cmdConfigRemove st target).1.resolvingKeys = st.resolvingKeys) ∧
    (∀ st : ConfigState,
        (cmdConfigRemove st "all").1.resolvingKeys = [] ∧
        (cmdConfigRemove st "all").1.modelCompat = [] ∧
        (cmdConfigRemove st "all").2 = true) := by
  refine ⟨?_, ?_, ?_, ?_, ?_⟩
  · intro st name key baseUrl
    refine ⟨?_, ?_, rfl⟩
    · simp [cmdConfigAdd, alookup_adel_self]
    · simp [cmdConfigAdd, rdel]
  · intro st name value p hp
    have hfl1 : (⟨("apikey" : String).data.map Char.toLower⟩ : String) = "apikey" := by decide
    have hfl2 : (⟨("baseurl" : String).data.map Char.toLower⟩ : String) = "baseurl" := by decide
    constructor
    · refine ⟨?_, ?_, ?_⟩ <;>
        simp [cmdConfigUpdate, hp, hfl1, alookup_adel_self, rdel]
    · refine ⟨?_, ?_, ?_⟩ <;>
        simp [cmdConfigUpdate, hp, hfl2, alookup_adel_self, rdel]
  · intro st target p hp
    by_cases hall : target = "all"
    · subst hall
      refine ⟨?_, ?_, ?_⟩ <;> simp [cmdConfigRemove, alookup]
    · refine ⟨?_, ?_, ?_⟩ <;>
        simp [cmdConfigRemove, hall, hp, alookup_adel_self]
  · intro st target hall
    rw [cmdConfigRemove, if_neg hall]
    cases alookup target st.providers <;> rfl
  · intro st
    exact ⟨rfl, rfl, rfl⟩

theorem c9_amended_witness :
    "acme" ∉ (cmdConfigUpdate
        ⟨[("acme", ⟨"k", "https://x.example", none, none⟩)], [("acme", [("m1", Compat.openai)])],
          [], ⟨"", "", "", ""⟩, ["acme"]⟩ "acme" "apikey" "k2").1.resolvingKeys :=
  ((c9_amended.2.1
      ⟨[("acme", ⟨"k", "https://x.example", none, none⟩)], [("acme", [("m1", Compat.openai)])],
        [], ⟨"", "", "", ""⟩, ["acme"]⟩ "acme" "k2"
      ⟨"k", "https://x.example", none, none⟩ (by decide)).1).2.1

/-- C4 (amended): a text within the 4096-unit transport limit is returned by
the splitter as the single segment equal to the text; every segment respects
the effective limit; the concatenation of the segments reconstructs the
original text up to newline characters deleted at segment boundaries (exact
concatenation can differ, per the counterexample); and `buildChunks` returns
the single segment unchanged, or each segment prefixed with its `(i/N)` page
header. -/
theorem c4_amended :
    (∀ text : String, text.length ≤ MAX_MSG → splitMessage text 0 = [text]) ∧
    (∀ (text : String) (reserve : Nat) (p : String),
        p ∈ splitMessage text reserve → p.length ≤ max 1 (MAX_MSG - reserve)) ∧
    (∀ (text : String) (reserve : Nat),
        canDropNl text.data ((splitMessage text reserve).map String.data).flatten = true) ∧
    (∀ (text p : String), splitMessage text PAGE_EXTRA = [p] →
        buildChunks text false none = [p]) ∧
    (∀ (text p1 p2 : String) (rest : List String),
        splitMessage text PAGE_EXTRA = p1 :: p2 :: rest →
        buildChunks text false none = (p1 :: p2 :: rest).mapIdx
          (fun i p => pageHeader (i + 1) (p1 :: p2 :: rest).length ++ p)) := by
  refine ⟨?_, ?_, ?_, ?_, ?_⟩
  · intro text hlen
    apply splitMessage_short
    have hm : max 1 (MAX_MSG - 0) = MAX_MSG := by decide
    rw [hm]
    exact hlen
  · intro text reserve p hp
    exact splitMessage_len_le text reserve p hp
  · intro text reserve
    exact splitMessage_canDrop text reserve
  · intro text p hsp
    have hre : PAGE_EXTRA + (if (false : Bool) then WRAP_EXTRA_COLLAPSED else 0) =
        PAGE_EXTRA := rfl
    rw [buildChunks, hre, hsp]
    simp [applyWrap_false]
  · intro text p1 p2 rest hsp
    have hre : PAGE_EXTRA + (if (false : Bool) then WRAP_EXTRA_COLLAPSED else 0) =
        PAGE_EXTRA := rfl
    rw [buildChunks, hre, hsp]
    simp [applyWrap_false]

theorem c4_amended_witness :
    splitMessage "hello" 0 = ["hello"] ∧ buildChunks "hi" false none = ["hi"] :=
  ⟨c4_amended.1 "hello" (by decide), c4_amended.2.2.2.1 "hi" "hi" (by decide)⟩

end AiGateway
